import Mathlib

/-!
Verification of the frame-encoding and pipeline core of the `shady` shader
renderer.  The definitions below are a shallow embedding of the Go sources:

* `encode` package (src/unnamed/part_000): the `Format` implementations
  (PNG/JPEG/RGB24/RGBA32 single-frame fallback loop, GIF, ANSI terminal
  display).
* `shadertoy/imu/imu.go` and `shadertoy/kinect/kinect.go`: the resource
  provider lifecycle (background loop, snapshot, Close handshake), embedded
  as labelled transition systems.
* `cmd/shady/shady.go`: the producer / counter / encoder animation pipeline,
  embedded as a labelled transition system over explicit channel states.

Machine integers are embedded as `Nat`/`Int` with explicit truncation where
the Go code truncates.  Fallible writes are modelled by an explicit writer
state; a Go panic (out-of-range slice access) is modelled by `Option`.
-/

namespace Shady

/-- Errors returned through Go's `error` interface are abstracted as strings. -/
abbrev Err := String

/-- A byte-oriented output sink (`io.Writer`).  `written` is the data accepted
so far, `calls` counts `Write` invocations, and `failAt` prescribes which
`Write` call (by index) fails and with which error.  A failed write accepts no
data, matching the model where the sink owns durability of flushed bytes. -/
structure Writer (α : Type) where
  written : List α
  failAt : Nat → Option Err
  calls : Nat

/-- One `Write` call on the sink: consults `failAt` for the current call index. -/
def Writer.write (w : Writer α) (chunk : List α) : Writer α × Option Err :=
  match w.failAt w.calls with
  | some e => ({ w with calls := w.calls + 1 }, some e)
  | none => ({ written := w.written ++ chunk, failAt := w.failAt, calls := w.calls + 1 }, none)

/-- A sink none of whose writes fail. -/
def Writer.noFail (w : Writer α) : Prop := ∀ n, w.failAt n = none

/-- The empty, never-failing sink. -/
def okWriter (α : Type) : Writer α := ⟨[], fun _ => none, 0⟩

/-- A color as returned by Go's `color.Color.RGBA()`: four 16-bit-scaled
channel values carried as `Nat` (the Go values are `uint32`, in range
`0..0xffff` for well-formed colors). -/
structure Pixel where
  r : Nat
  g : Nat
  b : Nat
  a : Nat

/-- An `image.Image`: bounds with minimum point `(minX, minY)` and size
`width × height` (`Dx × Dy`), a total color lookup `At`, and, when the image
is a `*image.RGBA` (checked by type assertion in the Go code), its direct
`Pix` byte slice. -/
structure Frame where
  minX : Int
  minY : Int
  width : Nat
  height : Nat
  At : Int → Int → Pixel
  rgbaPix : Option (List Nat)

/-- Go's `byte(v >> 8)` applied to a channel value. -/
def byteShift8 (n : Nat) : Nat := n / 256 % 256

/-- Indexing a Go slice: out of range (negative or past the end) is a panic,
modelled as `none`. -/
def listGetI (l : List Nat) (i : Int) : Option Nat :=
  if i < 0 then none else l.get? i.toNat

/-- Writing one element of a Go slice: out of range is a panic (`none`). -/
def bufSet (l : List Nat) (i : Int) (v : Nat) : Option (List Nat) :=
  if 0 ≤ i ∧ i.toNat < l.length then some (l.set i.toNat v) else none

/-- The pixel index computed by `RGB24Format.Encode`: `i := y*bounds.Dx() + x`
where `y = minY + dy`, `x = minX + dx`.  Note that it ignores the bounds'
minimum point, exactly as the Go code does. -/
def pixIndex (img : Frame) (dy dx : Nat) : Int :=
  (img.minY + dy) * img.width + (img.minX + dx)

/-- Fast path of `RGB24Format.Encode` for one pixel:
`copy(buf[i*3:i*3+3], rgba.Pix[i*4:i*4+3])`. -/
def rgb24FastPixel (pix buf : List Nat) (i : Int) : Option (List Nat) := do
  let r ← listGetI pix (i*4)
  let g ← listGetI pix (i*4+1)
  let b ← listGetI pix (i*4+2)
  let b0 ← bufSet buf (i*3) r
  let b1 ← bufSet b0 (i*3+1) g
  bufSet b1 (i*3+2) b

/-- Generic path of `RGB24Format.Encode` for one pixel at grid offset
`(dy, dx)`: reads `img.At(x, y)` and stores the three high bytes. -/
def rgb24GenericPixel (img : Frame) (buf : List Nat) (dy dx : Nat) : Option (List Nat) := do
  let x : Int := img.minX + dx
  let y : Int := img.minY + dy
  let i := pixIndex img dy dx
  let c := img.At x y
  let b0 ← bufSet buf (i*3) (byteShift8 c.r)
  let b1 ← bufSet b0 (i*3+1) (byteShift8 c.g)
  bufSet b1 (i*3+2) (byteShift8 c.b)

/-- The row-major double loop `for y ...: for x ...` of `RGB24Format.Encode`,
with grid offsets `dy ∈ [0, H)`, `dx ∈ [0, W)`. -/
def foldPixels (W H : Nat) (f : List Nat → Nat → Nat → Option (List Nat))
    (buf : List Nat) : Option (List Nat) :=
  (List.range H).foldlM (fun b dy => (List.range W).foldlM (fun b2 dx => f b2 dy dx) b) buf

/-- `RGB24Format.Encode`'s buffer construction: allocates `Dx*Dy*3` zero bytes
and fills them via the fast path (for `*image.RGBA` sources) or the generic
`At` path.  `none` models the Go panic on an out-of-range access. -/
def rgb24Encode (img : Frame) : Option (List Nat) :=
  let buf := List.replicate (img.width * img.height * 3) 0
  match img.rgbaPix with
  | some pix =>
    foldPixels img.width img.height (fun b dy dx => rgb24FastPixel pix b (pixIndex img dy dx)) buf
  | none => foldPixels img.width img.height (fun b dy dx => rgb24GenericPixel img b dy dx) buf

/-- `RGB24Format.Encode`: builds the buffer, then performs exactly one `Write`. -/
def RGB24Format.Encode (w : Writer Nat) (img : Frame) : Option (Writer Nat × Option Err) :=
  (rgb24Encode img).map (fun buf => w.write buf)

/-- `RGBA32Format.Encode`'s payload: a `*image.RGBA` source's `Pix` slice is
written directly; otherwise the image is flattened onto a fresh
`image.NewRGBA(img.Bounds())` canvas by `draw.Draw` with source point (0,0)
and that canvas' `Pix` (4 bytes per pixel, row-major) is written. -/
def rgba32Encode (img : Frame) : List Nat :=
  match img.rgbaPix with
  | some pix => pix
  | none =>
    ((List.range (img.width * img.height)).map (fun (i : Nat) =>
      let c := img.At ((i % img.width : Nat) : Int) ((i / img.width : Nat) : Int)
      [byteShift8 c.r, byteShift8 c.g, byteShift8 c.b, byteShift8 c.a])).flatten

/-- `RGBA32Format.Encode`: exactly one `Write` of the pixel payload. -/
def RGBA32Format.Encode (w : Writer Nat) (img : Frame) : Writer Nat × Option Err :=
  w.write (rgba32Encode img)

/-- The shared `EncodeAnimation` body of `PNGFormat`, `JPGFormat`,
`RGB24Format` and `RGBA32Format`:
`for img := range stream { if err := f.Encode(w, img); err != nil { return err } }`.
The channel is embedded as the list of frames it will deliver; the returned
list is the portion of the stream left unconsumed on early return. -/
def encodeAnimationFallback (encode : Writer α → Frame → Writer α × Option Err) :
    Writer α → List Frame → Writer α × List Frame × Option Err
  | w, [] => (w, [], none)
  | w, img :: rest =>
    match encode w img with
    | (w', some e) => (w', rest, some e)
    | (w', none) => encodeAnimationFallback encode w' rest

/-- A still-image `Encode` whose per-frame output is `encBytes img`, performed
as one `Write` (the PNG/JPEG codecs themselves are external `image/png`,
`image/jpeg` library calls; only their streaming contract is in scope). -/
def singleWriteEncode (encBytes : Frame → List α) (w : Writer α) (img : Frame) :
    Writer α × Option Err :=
  w.write (encBytes img)

/-- The writer state after encoding a list of frames in order. -/
def runFrames (encode : Writer α → Frame → Writer α × Option Err) :
    Writer α → List Frame → Writer α
  | w, [] => w
  | w, img :: rest => runFrames encode (encode w img).1 rest

/-- All frames of the list encode without a write failure. -/
def FramesOk (encode : Writer α → Frame → Writer α × Option Err) :
    Writer α → List Frame → Prop
  | _, [] => True
  | w, img :: rest => (encode w img).2 = none ∧ FramesOk encode (encode w img).1 rest

/-- The `gif.GIF` structure assembled by `GIFFormat.EncodeAnimation`; the
paletted frames themselves are abstracted to their count. -/
structure GoGIF where
  numImages : Nat
  Delay : List Int
  LoopCount : Int
  Disposal : List Nat
  BackgroundIndex : Nat

/-- `gif.DisposalBackground` ("replace with background" disposal). -/
def DisposalBackground : Nat := 2

/-- Per `image/gif`, a `LoopCount` of 0 means the animation loops forever. -/
def gifLoopForever : Int := 0

/-- `time.Second/100` in nanoseconds: the GIF delay unit of 1/100 s. -/
def hundredthSecond : Int := 10000000

/-- The `for img := range stream` loop of `GIFFormat.EncodeAnimation`:
appends one paletted frame, one delay `int(interval/(time.Second/100))`
(Go `int64` division truncates toward zero, `Int.tdiv`), and one
background-disposal entry per input frame. -/
def GIFFormat.encodeLoop (interval : Int) : GoGIF → List Frame → GoGIF
  | g, [] => g
  | g, _ :: rest =>
    GIFFormat.encodeLoop interval
      { g with
        numImages := g.numImages + 1
        Delay := g.Delay ++ [Int.tdiv interval hundredthSecond]
        Disposal := g.Disposal ++ [DisposalBackground] } rest

/-- `GIFFormat.EncodeAnimation`: starts from the literal
`gif.GIF{Image: [], Delay: [], LoopCount: 0, Disposal: [], BackgroundIndex: 0}`
and folds the stream; `gif.EncodeAll` then serialises the result. -/
def GIFFormat.EncodeAnimation (frames : List Frame) (interval : Int) : GoGIF :=
  GIFFormat.encodeLoop interval ⟨0, [], 0, [], 0⟩ frames

/-- The full-clear escape sequence `"\x1b[3J\x1b[H\x1b[2J"` emitted by the
ANSI display on its first frame. -/
def clearSeq : String := "\u001b[3J\u001b[H\u001b[2J"

/-- The cursor-home escape `"\x1b[1;1H"` emitted before every later frame. -/
def homeSeq : String := "\u001b[1;1H"

/-- The foreground true-color escape `"\x1b[38;2;%d;%d;%dm"` with arguments
`r/256`, `g/256`, `b/256`. -/
def fgEscape (p : Pixel) : String :=
  "\u001b[38;2;" ++ toString (p.r / 256) ++ ";" ++ toString (p.g / 256) ++ ";"
    ++ toString (p.b / 256) ++ "m"

/-- The background true-color escape `"\x1b[48;2;%d;%d;%dm"`. -/
def bgEscape (p : Pixel) : String :=
  "\u001b[48;2;" ++ toString (p.r / 256) ++ ";" ++ toString (p.g / 256) ++ ";"
    ++ toString (p.b / 256) ++ "m"

/-- The literal `"\x1b[48;2;0m"` the code emits for an odd final source row
that has no partner row. -/
def bgOddEscape : String := "\u001b[48;2;0m"

/-- One character cell of the ANSI display: foreground color from source row
`2y`, background from row `2y+1` when it exists (else `bgOddEscape`), then the
upper-half-block glyph.  The loops index from 0, ignoring the bounds minimum,
exactly as the Go code does. -/
def ansiCell (img : Frame) (y x : Nat) : String :=
  fgEscape (img.At x (2*y)) ++
    (if 2*y + 1 < img.height then bgEscape (img.At x (2*y + 1)) else bgOddEscape) ++
    "▀"

/-- One output row: all cells followed by a style reset and a newline. -/
def ansiRow (img : Frame) (y : Nat) : String :=
  String.join ((List.range img.width).map (fun x => ansiCell img y x)) ++ "\u001b[0m\n"

/-- The number of character-cell rows: `height/2 + height&1`. -/
def ansiRows (img : Frame) : Nat := img.height / 2 + img.height % 2

/-- The frame body (everything after the clear / cursor-home prologue). -/
def ansiBody (img : Frame) : String :=
  String.join ((List.range (ansiRows img)).map (fun y => ansiRow img y))

/-- The complete per-frame buffer flushed by one `io.Copy`: clear sequence on
the first ever frame, cursor-home afterwards, then the body. -/
def ansiFrame (initDone : Bool) (img : Frame) : String :=
  (if initDone then homeSeq else clearSeq) ++ ansiBody img

/-- The stateful terminal-display format; `initDone` records whether the
clear sequence has been emitted. -/
structure AnsiDisplay where
  initDone : Bool

/-- `(*AnsiDisplay).EncodeAnimation` (pointer receiver: the `initDone` update
persists on the receiver).  Each frame is flushed with a single `io.Copy`;
a failed copy returns that error.  The returned list is the unconsumed rest
of the stream; the sleep-based pacing is not modelled. -/
def AnsiDisplay.EncodeAnimation :
    AnsiDisplay → Writer String → List Frame →
      AnsiDisplay × Writer String × List Frame × Option Err
  | f, w, [] => (f, w, [], none)
  | f, w, img :: rest =>
    let out := ansiFrame f.initDone img
    match w.write [out] with
    | (w', some e) => (⟨true⟩, w', rest, some e)
    | (w', none) => AnsiDisplay.EncodeAnimation ⟨true⟩ w' rest

/-- `AnsiDisplay.Encode` (value receiver!): forwards a one-frame stream to
`EncodeAnimation` on a copy of the receiver, so the `initDone` update made
inside is discarded — the first component of the result is the caller's
unchanged state. -/
def AnsiDisplay.Encode (f : AnsiDisplay) (w : Writer String) (img : Frame) :
    AnsiDisplay × Writer String × Option Err :=
  let r := AnsiDisplay.EncodeAnimation f w [img]
  (f, r.2.1, r.2.2.2)

/-- The per-frame strings an `EncodeAnimation` call starting in state `st`
flushes, in order. -/
def ansiOutputs : Bool → List Frame → List String
  | _, [] => []
  | st, img :: rest => ansiFrame st img :: ansiOutputs true rest

/-- The display/writer state after the ANSI loop has flushed a list of
frames (ignoring failures: the writer records each attempted `io.Copy`). -/
def ansiRun : AnsiDisplay → Writer String → List Frame → AnsiDisplay × Writer String
  | d, w, [] => (d, w)
  | d, w, img :: rest => ansiRun ⟨true⟩ (w.write [ansiFrame d.initDone img]).1 rest

/-- Every per-frame flush of the ANSI loop on this list succeeds. -/
def AnsiFramesOk : AnsiDisplay → Writer String → List Frame → Prop
  | _, _, [] => True
  | d, w, img :: rest => (w.write [ansiFrame d.initDone img]).2 = none
      ∧ AnsiFramesOk ⟨true⟩ (w.write [ansiFrame d.initDone img]).1 rest

/-- `GIFFormat.EncodeAnimation`'s interaction with the sink: the
`for img := range stream` loop consumes the entire channel performing no
writes, and the single `gif.EncodeAll(w, gifImg)` call at the end serialises
the assembled GIF (its byte content abstracted as `gifBytes`, since
`image/gif` is an external codec) and returns that call's error.  The
unconsumed-stream component is always `[]`: by the time any write can fail,
the input sequence has already ended. -/
def GIFFormat.EncodeAnimationW (gifBytes : GoGIF → List Nat) (w : Writer Nat)
    (frames : List Frame) (interval : Int) : Writer Nat × List Frame × Option Err :=
  match w.write (gifBytes (GIFFormat.EncodeAnimation frames interval)) with
  | (w', e) => (w', [], e)

/-- A solid-color `W × H` frame with bounds minimum `(0,0)`, taking the
generic (non-`*image.RGBA`) encode paths. -/
def solidFrame (W H : Nat) (c : Pixel) : Frame :=
  { minX := 0, minY := 0, width := W, height := H, At := fun _ _ => c, rgbaPix := none }

/-- The `Pix` slice of a solid `*image.RGBA` image: `W*H` pixels of 4 bytes. -/
def flatPix (W H : Nat) (c : Pixel) : List Nat :=
  (List.replicate (W * H) [byteShift8 c.r, byteShift8 c.g, byteShift8 c.b, byteShift8 c.a]).flatten

/-- A solid-color `W × H` frame presented as a `*image.RGBA`, taking the fast
encode paths. -/
def solidFrameRGBA (W H : Nat) (c : Pixel) : Frame :=
  { solidFrame W H c with rgbaPix := some (flatPix W H c) }

/-- A concrete 1×1 black frame used to evaluate the embedding. -/
def testFrame : Frame := solidFrame 1 1 ⟨0, 0, 0, 65535⟩

/-- A 1×1 frame whose bounds minimum is `(1, 0)` rather than the origin. -/
def offsetFrame : Frame := { solidFrame 1 1 ⟨0, 0, 0, 0⟩ with minX := 1 }

/-- A concrete 1×2 black frame (even height). -/
def testFrame2 : Frame := solidFrame 1 2 ⟨0, 0, 0, 65535⟩

/-! ## Resource providers: IMU (imu.go) and Kinect (kinect.go)

Each provider owns a background loop plus a `Close` method that closes the
`closed` channel and then waits on the `loopClosed` channel.  They are
embedded as labelled transition systems; channel closure is a boolean flag.
The snapshot value guarded by `currentValueLock` is abstracted to a `Nat`
(one whole decoded reading); the lock's "replace the whole struct" critical
section makes a snapshot update a single transition. -/

/-- Program counter of a `Close` call on a provider. -/
inductive ClosePc
  | idle
  | waiting
  | returned
deriving DecidableEq

/-- State of a successfully constructed `IMU_values` provider: the two
lifecycle channels (created on lines 75–76, hence non-nil) and the snapshot. -/
structure IMUState where
  closedCh : Bool
  loopClosed : Bool
  currentValue : Nat
  closePc : ClosePc
deriving DecidableEq

/-- Actions of the IMU provider: the poll loop's fetch (success carries the
decoded reading), and the two halves of `Close`. -/
inductive IMUAct
  | fetchOk (d : Nat)
  | fetchErr
  | closeSignal
  | closeReturn

/-- One transition of the IMU provider.  The poll loop (imu.go lines 77–90)
is an unconditional `for` loop: a successful `getJson` replaces the snapshot
under the lock, a failed one changes nothing; the loop consults neither
`imu.closed` nor `imu.loopClosed`, so no transition ever sets `loopClosed`.
`Close` (lines 135–142) closes `imu.closed` and then blocks on
`<-imu.loopClosed`, which is enabled only once `loopClosed` is closed. -/
def imuStep (s : IMUState) : IMUAct → Option IMUState
  | .fetchOk d => some { s with currentValue := d }
  | .fetchErr => some s
  | .closeSignal =>
    if s.closePc = .idle then some { s with closedCh := true, closePc := .waiting } else none
  | .closeReturn =>
    if s.closePc = .waiting ∧ s.loopClosed = true then some { s with closePc := .returned }
    else none

/-- The provider state right after a successful `newIMUPeripheral`. -/
def imuInit (d : Nat) : IMUState := ⟨false, false, d, .idle⟩

/-- `newIMUPeripheral` (imu.go lines 59–93): performs one synchronous
`getJson`; a failure aborts construction with that error (`failSilent` is
always false), a success seeds `currentValue` and starts the poll loop. -/
def newIMUPeripheral : Except Err Nat → Except Err IMUState
  | .error e => .error e
  | .ok d => .ok (imuInit d)

/-- `(*IMU_values).PreRender` reads the snapshot under the lock and pushes it
into the uniform table; the value it observes is the current snapshot. -/
def IMU_values.PreRender (s : IMUState) : Nat := s.currentValue

/-- States of the IMU provider reachable from a given start state. -/
inductive IMUReachable (s0 : IMUState) : IMUState → Prop
  | refl : IMUReachable s0 s0
  | step {s s' : IMUState} {a : IMUAct} :
      IMUReachable s0 s → imuStep s a = some s' → IMUReachable s0 s'

/-- Program counter of the kinect `freenectLoop` (kinect.go lines 179–210). -/
inductive KinLoopPc
  | check
  | teardown
  | done
deriving DecidableEq

/-- State of a constructed kinect provider's lifecycle. -/
structure KinState where
  closedCh : Bool
  loopClosed : Bool
  loopPc : KinLoopPc
  closePc : ClosePc
deriving DecidableEq

/-- Actions of the kinect loop and its `Close`. -/
inductive KinAct
  | loopCheck (eventsOk : Bool)
  | loopTeardown
  | closeSignal
  | closeReturn

/-- One transition of the kinect provider.  Each loop iteration first selects
on `kin.closed` and breaks if it is closed (or if `freenect_process_events`
fails); after breaking, the loop performs the ordered device teardown and its
deferred `close(kin.loopClosed)` runs.  `Close` (lines 133–139) closes
`closed` and then blocks on `<-kin.loopClosed`. -/
def kinStep (s : KinState) : KinAct → Option KinState
  | .loopCheck eventsOk =>
    if s.loopPc = .check then
      some (if s.closedCh = true ∨ eventsOk = false then { s with loopPc := .teardown } else s)
    else none
  | .loopTeardown =>
    if s.loopPc = .teardown then some { s with loopPc := .done, loopClosed := true } else none
  | .closeSignal =>
    if s.closePc = .idle then some { s with closedCh := true, closePc := .waiting } else none
  | .closeReturn =>
    if s.closePc = .waiting ∧ s.loopClosed = true then some { s with closePc := .returned }
    else none

/-! ## The animation pipeline (cmd/shady/shady.go lines 143–203)

Three stages — producer (`sh.Animate` plus `close(imgStream)` in `main`),
counter goroutine, encoder goroutine plus its on-failure drain goroutine —
communicate through `imgStream` (buffered, capacity `int(framerate)+1`) and
`counterStream` (unbuffered).  Frames are abstracted to sequence numbers.
The buffered channel is a FIFO list; the unbuffered channel is a rendezvous:
a hand-off happens jointly between the counter's pending send and a ready
receiver.  Receiving on a closed channel with no pending sender completes
immediately, ending the receiver's `range` loop. -/

/-- Pipeline session parameters: frame limit `N` (`animateNumFrames`, 0 = no
limit), `imgStream` capacity `B`, which received frame (if any) makes the
encoder's write fail, and whether an external interrupt can arrive. -/
structure PipeConfig where
  N : Nat
  B : Nat
  failPlan : Nat → Bool
  sigEnabled : Bool

/-- Program counter of the main goroutine: animate loop, then
`close(imgStream)` and `waitgroup.Wait()`, then exit. -/
inductive MainPc
  | mrun
  | mwait
  | mdone
deriving DecidableEq

/-- Program counter of the counter goroutine: receiving from `imgStream`,
sending on `counterStream`, running `close(counterStream)`, finished. -/
inductive CntPc
  | crecv
  | csend
  | cclose
  | cdone
deriving DecidableEq

/-- Program counter of the encoder goroutine: receiving inside
`EncodeAnimation`, handling an encode failure, finished. -/
inductive EncPc
  | erecv
  | efail
  | edone
deriving DecidableEq

/-- Program counter of the drain goroutine spawned on encoder failure. -/
inductive DrainPc
  | didle
  | drun
  | ddone
deriving DecidableEq

/-- Global pipeline state: the cancellation flag of the shared context, the
producer's next frame number, the two channels, the four program counters,
the counter's `frame` count and in-flight frame, and the lists of frames
received by `EncodeAnimation` and by the drain loop. -/
structure PipeState where
  cancelled : Bool
  nextId : Nat
  img : List Nat
  imgClosed : Bool
  csClosed : Bool
  mainPc : MainPc
  cntPc : CntPc
  frame : Nat
  held : Option Nat
  encPc : EncPc
  drainPc : DrainPc
  encList : List Nat
  drainList : List Nat
deriving DecidableEq

/-- Scheduler actions: one atomic step of one goroutine (hand-offs on the
unbuffered channel are joint steps of sender and receiver). -/
inductive PipeAct
  | sig
  | prodSend
  | prodExit
  | mainFinish
  | cntRecv
  | cntExitLoop
  | cntClose
  | handoffEnc
  | handoffDrain
  | encFail
  | encRecvClosed
  | drainClosed
deriving DecidableEq

/-- Modelled from the spec: the producer stage.  Its body, `glsl.Shader.Animate`
(the renderer library), is not under src/; per §4.3 the producer "drives the
renderer at the requested cadence, pushing each produced frame into a buffered
hand-off", blocks when the buffer is full (§5), and observes cancellation
between frames, upon which it "stops producing and closes its output".
A send is enabled while the session is not cancelled and the buffer has room. -/
def prodSendStep (cfg : PipeConfig) (s : PipeState) : Option PipeState :=
  if s.mainPc = .mrun ∧ s.cancelled = false ∧ s.img.length < cfg.B then
    some { s with img := s.img ++ [s.nextId], nextId := s.nextId + 1 }
  else none

/-- Modelled from the spec: the producer observing cancellation between
frames: `sh.Animate` returns and `main` runs `close(imgStream)`, then blocks
in `waitgroup.Wait()`. -/
def prodExitStep (s : PipeState) : Option PipeState :=
  if s.mainPc = .mrun ∧ s.cancelled = true then
    some { s with imgClosed := true, mainPc := .mwait }
  else none

/-- One pipeline transition.  The counter, encoder and drain transitions are
embedded from shady.go lines 157–200; the producer transitions are the
spec-modelled `prodSendStep`/`prodExitStep`.  `waitgroup.Wait` returns once
both the counter and the encoder goroutine have called `waitgroup.Done`. -/
def pstep (cfg : PipeConfig) (s : PipeState) : PipeAct → Option PipeState
  | .sig =>
    if cfg.sigEnabled = true ∧ s.cancelled = false then some { s with cancelled := true }
    else none
  | .prodSend => prodSendStep cfg s
  | .prodExit => prodExitStep s
  | .mainFinish =>
    if s.mainPc = .mwait ∧ s.cntPc = .cdone ∧ s.encPc = .edone then
      some { s with mainPc := .mdone }
    else none
  | .cntRecv =>
    match s.img with
    | [] => none
    | v :: rest =>
      if s.cntPc = .crecv then
        some { s with img := rest, frame := s.frame + 1, held := some v, cntPc := .csend }
      else none
  | .cntExitLoop =>
    if s.cntPc = .crecv ∧ s.img = [] ∧ s.imgClosed = true then
      some { s with cntPc := .cclose }
    else none
  | .cntClose =>
    if s.cntPc = .cclose then some { s with csClosed := true, cntPc := .cdone } else none
  | .handoffEnc =>
    match s.held with
    | none => none
    | some v =>
      if s.cntPc = .csend ∧ s.encPc = .erecv then
        some { s with
          held := none
          encList := s.encList ++ [v]
          encPc := if cfg.failPlan s.encList.length then .efail else .erecv
          cancelled := if s.frame = cfg.N then true else s.cancelled
          cntPc := if s.frame = cfg.N then .cclose else .crecv }
      else none
  | .handoffDrain =>
    match s.held with
    | none => none
    | some v =>
      if s.cntPc = .csend ∧ s.drainPc = .drun then
        some { s with
          held := none
          drainList := s.drainList ++ [v]
          cancelled := if s.frame = cfg.N then true else s.cancelled
          cntPc := if s.frame = cfg.N then .cclose else .crecv }
      else none
  | .encFail =>
    if s.encPc = .efail then
      some { s with cancelled := true, drainPc := .drun, encPc := .edone }
    else none
  | .encRecvClosed =>
    if s.encPc = .erecv ∧ s.csClosed = true then some { s with encPc := .edone } else none
  | .drainClosed =>
    if s.drainPc = .drun ∧ s.csClosed = true then some { s with drainPc := .ddone } else none

/-- The state at the start of animation mode. -/
def pinit : PipeState :=
  ⟨false, 0, [], false, false, .mrun, .crecv, 0, none, .erecv, .didle, [], []⟩

/-- Pipeline states reachable from the start of animation mode. -/
inductive PReachable (cfg : PipeConfig) : PipeState → Prop
  | init : PReachable cfg pinit
  | step {s s' : PipeState} {a : PipeAct} :
      PReachable cfg s → pstep cfg s a = some s' → PReachable cfg s'

/-- Running a whole schedule of actions. -/
def prun (cfg : PipeConfig) : PipeState → List PipeAct → Option PipeState
  | s, [] => some s
  | s, a :: tr =>
    match pstep cfg s a with
    | none => none
    | some s' => prun cfg s' tr

/-- All three pipeline stages (and the drain goroutine, if spawned) have
terminated: `waitgroup.Wait` has returned and the process may exit. -/
def PAllDone (s : PipeState) : Prop :=
  s.mainPc = .mdone ∧ s.cntPc = .cdone ∧ s.encPc = .edone ∧ s.drainPc ≠ .drun

/-- A ranking function on pipeline states: after cancellation every enabled
transition strictly decreases it, bounding the length of any remaining
schedule. -/
def pMeasure (s : PipeState) : Nat :=
  (match s.mainPc with | .mrun => 2 | .mwait => 1 | .mdone => 0)
  + (match s.cntPc with
     | .crecv => 2 * s.img.length + 2
     | .csend => 2 * s.img.length + 3
     | .cclose => 1
     | .cdone => 0)
  + (match s.encPc with | .erecv => 3 | .efail => 2 | .edone => 0)
  + (match s.drainPc with | .didle => 0 | .drun => 1 | .ddone => 0)

/-- The session invariant relating program counters, channel flags and the
frame accounting; it holds in every reachable pipeline state. -/
structure PInv (cfg : PipeConfig) (s : PipeState) : Prop where
  i1 : s.csClosed = true → s.cntPc = .cdone
  i2a : s.imgClosed = true → (s.mainPc = .mwait ∨ s.mainPc = .mdone)
  i2b : (s.mainPc = .mwait ∨ s.mainPc = .mdone) → s.imgClosed = true
  i3 : (s.cntPc = .cclose ∨ s.cntPc = .cdone) → (s.cancelled = true ∨ s.imgClosed = true)
  i4 : s.encPc = .edone → (s.csClosed = true ∨ s.drainPc = .drun ∨ s.drainPc = .ddone)
  i5 : s.drainPc = .ddone → s.csClosed = true
  i9 : (s.mainPc = .mwait ∨ s.mainPc = .mdone) → s.cancelled = true
  i10 : s.cntPc = .cdone → s.csClosed = true
  i11 : s.mainPc = .mdone → s.cntPc = .cdone ∧ s.encPc = .edone
  i12 : s.drainPc = .didle → s.drainList = []
  i13 : (s.encPc = .erecv ∨ s.encPc = .efail) → s.drainPc = .didle
  i6a : s.img = List.range' s.frame (s.nextId - s.frame) ∧ s.frame ≤ s.nextId
  i6b : s.cntPc = .csend → s.held = some (s.frame - 1) ∧ 1 ≤ s.frame
  i6c : s.encList ++ s.drainList
      = List.range (if s.cntPc = .csend then s.frame - 1 else s.frame)
  i14 : (s.cntPc = .cclose ∨ s.cntPc = .cdone) →
      ((s.cancelled = true ∧ s.frame = cfg.N ∧ 1 ≤ cfg.N)
        ∨ (s.img = [] ∧ s.frame = s.nextId))

/-- No write the encoder performs ever fails. -/
def NoFailCfg (cfg : PipeConfig) : Prop := ∀ k, cfg.failPlan k = false

/-- A concrete session: frame limit 1, buffer capacity 1, no write failures,
no external interrupt. -/
def cfgW : PipeConfig := ⟨1, 1, fun _ => false, false⟩

/-- The final state of the `cfgW` session after the schedule
`[prodSend, cntRecv, handoffEnc, cntClose, encRecvClosed, prodExit,
mainFinish]`. -/
def pW : PipeState :=
  ⟨true, 1, [], true, true, .mdone, .cdone, 1, none, .edone, .didle, [0], []⟩

/-! ## Writer and fallback-loop lemmas -/

theorem write_ok (w : Writer α) (h : w.noFail) (chunk : List α) :
    w.write chunk
      = ({ written := w.written ++ chunk, failAt := w.failAt, calls := w.calls + 1 }, none) := by
  simp [Writer.write, h w.calls]

theorem noFail_write (w : Writer α) (h : w.noFail) (chunk : List α) :
    ((w.write chunk).1).noFail := by
  rw [write_ok w h]
  exact h

theorem encodeAnimationFallback_cons (encode : Writer α → Frame → Writer α × Option Err)
    (w : Writer α) (img : Frame) (rest : List Frame) :
    encodeAnimationFallback encode w (img :: rest)
      = match encode w img with
        | (w', some e) => (w', rest, some e)
        | (w', none) => encodeAnimationFallback encode w' rest := rfl

theorem ansiEncodeAnimation_cons (d : AnsiDisplay) (w : Writer String) (img : Frame)
    (rest : List Frame) :
    AnsiDisplay.EncodeAnimation d w (img :: rest)
      = match w.write [ansiFrame d.initDone img] with
        | (w', some e) => (⟨true⟩, w', rest, some e)
        | (w', none) => AnsiDisplay.EncodeAnimation ⟨true⟩ w' rest := rfl

/-- C5: for every format and every frame sequence, `EncodeAnimation`
terminates when the input sequence ends or at the first write failure, in
which case that failure is returned to the caller with the rest of the
sequence unconsumed.  Formats by loop shape: (1–2) the shared single-frame
fallback loop of PNG/JPEG/RGB24/RGBA32 — all frames encode cleanly iff the
stream is consumed to the end with no error, and the first failing frame's
error is returned with exactly the following frames unconsumed; (3–4) the
ANSI display loop behaves the same way, one flush per frame; (5–6) the GIF
loop consumes the whole stream without writing, then performs its single
serialisation: its success extends the sink by the encoded GIF and a failure
of that write is returned as is — with the input already exhausted, so
nothing further is consumed in either case. -/
theorem encodeAnimationFirstFailure :
    (∀ (α : Type) (encode : Writer α → Frame → Writer α × Option Err) (w : Writer α)
        (frames : List Frame), FramesOk encode w frames →
        encodeAnimationFallback encode w frames = (runFrames encode w frames, [], none))
    ∧ (∀ (α : Type) (encode : Writer α → Frame → Writer α × Option Err) (w : Writer α)
        (pre : List Frame) (img : Frame) (rest : List Frame) (e : Err),
        FramesOk encode w pre →
        (encode (runFrames encode w pre) img).2 = some e →
        encodeAnimationFallback encode w (pre ++ img :: rest)
          = ((encode (runFrames encode w pre) img).1, rest, some e))
    ∧ (∀ (d : AnsiDisplay) (w : Writer String) (frames : List Frame),
        AnsiFramesOk d w frames →
        AnsiDisplay.EncodeAnimation d w frames
          = ((ansiRun d w frames).1, (ansiRun d w frames).2, [], none))
    ∧ (∀ (d : AnsiDisplay) (w : Writer String) (pre : List Frame) (img : Frame)
        (rest : List Frame) (e : Err),
        AnsiFramesOk d w pre →
        ((ansiRun d w pre).2.write [ansiFrame (ansiRun d w pre).1.initDone img]).2 = some e →
        AnsiDisplay.EncodeAnimation d w (pre ++ img :: rest)
          = (⟨true⟩,
             ((ansiRun d w pre).2.write [ansiFrame (ansiRun d w pre).1.initDone img]).1,
             rest, some e))
    ∧ (∀ (gifBytes : GoGIF → List Nat) (w : Writer Nat) (frames : List Frame)
        (interval : Int), w.failAt w.calls = none →
        GIFFormat.EncodeAnimationW gifBytes w frames interval
          = ({ written := w.written ++ gifBytes (GIFFormat.EncodeAnimation frames interval),
               failAt := w.failAt, calls := w.calls + 1 }, [], none))
    ∧ (∀ (gifBytes : GoGIF → List Nat) (w : Writer Nat) (frames : List Frame)
        (interval : Int) (e : Err), w.failAt w.calls = some e →
        GIFFormat.EncodeAnimationW gifBytes w frames interval
          = ({ w with calls := w.calls + 1 }, [], some e)) := by
  refine ⟨?_, ?_, ?_, ?_, ?_, ?_⟩
  · intro α encode w frames h
    induction frames generalizing w with
    | nil => rfl
    | cons img rest ih =>
      obtain ⟨h1, h2⟩ := h
      rw [encodeAnimationFallback_cons]
      rcases he : encode w img with ⟨w', e⟩
      rw [he] at h1 h2
      simp only at h1
      subst h1
      simp only [runFrames, he]
      exact ih w' h2
  · intro α encode w pre img rest e hok hfail
    induction pre generalizing w with
    | nil =>
      simp only [List.nil_append]
      rw [encodeAnimationFallback_cons]
      simp only [runFrames] at hfail ⊢
      rcases he : encode w img with ⟨w', e'⟩
      rw [he] at hfail
      simp only at hfail
      subst hfail
      simp [he]
    | cons p ps ih =>
      obtain ⟨h1, h2⟩ := hok
      simp only [List.cons_append]
      rw [encodeAnimationFallback_cons]
      rcases he : encode w p with ⟨w', e'⟩
      rw [he] at h1 h2
      simp only at h1
      subst h1
      have hrun : runFrames encode w (p :: ps) = runFrames encode w' ps := by
        simp only [runFrames, he]
      rw [hrun] at hfail ⊢
      exact ih w' h2 hfail
  · intro d w frames h
    induction frames generalizing d w with
    | nil => rfl
    | cons img rest ih =>
      obtain ⟨h1, h2⟩ := h
      rw [ansiEncodeAnimation_cons]
      rcases he : w.write [ansiFrame d.initDone img] with ⟨w', e⟩
      rw [he] at h1 h2
      simp only at h1
      subst h1
      simp only [ansiRun, he]
      exact ih ⟨true⟩ w' h2
  · intro d w pre img rest e hok hfail
    induction pre generalizing d w with
    | nil =>
      simp only [List.nil_append]
      rw [ansiEncodeAnimation_cons]
      simp only [ansiRun] at hfail ⊢
      rcases he : w.write [ansiFrame d.initDone img] with ⟨w', e'⟩
      rw [he] at hfail
      simp only at hfail
      subst hfail
      simp [he]
    | cons p ps ih =>
      obtain ⟨h1, h2⟩ := hok
      simp only [List.cons_append]
      rw [ansiEncodeAnimation_cons]
      rcases he : w.write [ansiFrame d.initDone p] with ⟨w', e'⟩
      rw [he] at h1 h2
      simp only at h1
      subst h1
      have hrun : ansiRun d w (p :: ps) = ansiRun ⟨true⟩ w' ps := by
        simp only [ansiRun, he]
      rw [hrun] at hfail ⊢
      exact ih ⟨true⟩ w' h2 hfail
  · intro gifBytes w frames interval h
    simp [GIFFormat.EncodeAnimationW, Writer.write, h]
  · intro gifBytes w frames interval e h
    simp [GIFFormat.EncodeAnimationW, Writer.write, h]

theorem encodeAnimationFirstFailure_witness :
    ((FramesOk (singleWriteEncode (fun _ => [7]))
        ⟨[], fun n => if n = 1 then some ("boom") else none, 0⟩ [testFrame]
      ∧ (singleWriteEncode (fun _ => [7])
          (runFrames (singleWriteEncode (fun _ => [7]))
            ⟨[], fun n => if n = 1 then some ("boom") else none, 0⟩ [testFrame]) testFrame).2
        = some ("boom"))
    ∧ encodeAnimationFallback (singleWriteEncode (fun _ => [7]))
        ⟨[], fun n => if n = 1 then some ("boom") else none, 0⟩
        ([testFrame] ++ testFrame :: [testFrame])
      = ((singleWriteEncode (fun _ => [7])
            (runFrames (singleWriteEncode (fun _ => [7]))
              ⟨[], fun n => if n = 1 then some ("boom") else none, 0⟩ [testFrame]) testFrame).1,
         [testFrame], some ("boom")))
    ∧ ((AnsiFramesOk ⟨false⟩ ⟨[], fun n => if n = 1 then some ("boom") else none, 0⟩ [testFrame]
      ∧ ((ansiRun ⟨false⟩ ⟨[], fun n => if n = 1 then some ("boom") else none, 0⟩
            [testFrame]).2.write
          [ansiFrame (ansiRun ⟨false⟩ ⟨[], fun n => if n = 1 then some ("boom") else none, 0⟩
            [testFrame]).1.initDone testFrame]).2 = some ("boom"))
    ∧ AnsiDisplay.EncodeAnimation ⟨false⟩
        ⟨[], fun n => if n = 1 then some ("boom") else none, 0⟩
        ([testFrame] ++ testFrame :: [testFrame])
      = (⟨true⟩,
         ((ansiRun ⟨false⟩ ⟨[], fun n => if n = 1 then some ("boom") else none, 0⟩
             [testFrame]).2.write
           [ansiFrame (ansiRun ⟨false⟩ ⟨[], fun n => if n = 1 then some ("boom") else none, 0⟩
             [testFrame]).1.initDone testFrame]).1,
         [testFrame], some ("boom")))
    ∧ ((⟨[], fun _ => some ("gifboom"), 0⟩ : Writer Nat).failAt
          (⟨[], fun _ => some ("gifboom"), 0⟩ : Writer Nat).calls = some ("gifboom")
    ∧ GIFFormat.EncodeAnimationW (fun _ => [0])
        ⟨[], fun _ => some ("gifboom"), 0⟩ [testFrame] 0
      = ({ (⟨[], fun _ => some ("gifboom"), 0⟩ : Writer Nat) with
           calls := (⟨[], fun _ => some ("gifboom"), 0⟩ : Writer Nat).calls + 1 },
         [], some ("gifboom"))) :=
  ⟨⟨⟨⟨rfl, trivial⟩, rfl⟩,
    encodeAnimationFirstFailure.2.1 Nat (singleWriteEncode (fun _ => [7]))
      ⟨[], fun n => if n = 1 then some ("boom") else none, 0⟩
      [testFrame] testFrame [testFrame] "boom" ⟨rfl, trivial⟩ rfl⟩,
   ⟨⟨⟨rfl, trivial⟩, rfl⟩,
    encodeAnimationFirstFailure.2.2.2.1 ⟨false⟩
      ⟨[], fun n => if n = 1 then some ("boom") else none, 0⟩
      [testFrame] testFrame [testFrame] "boom" ⟨rfl, trivial⟩ rfl⟩,
   ⟨rfl,
    encodeAnimationFirstFailure.2.2.2.2.2 (fun _ => [0])
      ⟨[], fun _ => some ("gifboom"), 0⟩ [testFrame] 0 "gifboom" rfl⟩⟩

/-- C7: for every finite frame sequence, the single-frame-fallback
`EncodeAnimation` (shared by PNG, JPEG, RGB24 and RGBA32) over a sink whose
writes succeed produces output byte-for-byte equal to the concatenation of
the independent per-frame `Encode` outputs, in input order. -/
theorem fallbackConcatenation :
    (∀ (α : Type) (encBytes : Frame → List α) (w : Writer α) (frames : List Frame),
        w.noFail →
        encodeAnimationFallback (singleWriteEncode encBytes) w frames
          = ({ written := w.written ++ (frames.map encBytes).flatten, failAt := w.failAt,
               calls := w.calls + frames.length }, [], none))
    ∧ (∀ (α : Type) (encBytes : Frame → List α) (img : Frame),
        (singleWriteEncode encBytes (okWriter α) img).1.written = encBytes img) := by
  constructor
  · intro α encBytes w frames h
    induction frames generalizing w with
    | nil => simp [encodeAnimationFallback]
    | cons img rest ih =>
      rw [encodeAnimationFallback_cons]
      have hw := write_ok w h (encBytes img)
      simp only [singleWriteEncode, hw]
      rw [ih { written := w.written ++ encBytes img, failAt := w.failAt, calls := w.calls + 1 } h]
      simp only [List.map_cons, List.flatten_cons, List.append_assoc, List.length_cons]
      have hc : w.calls + 1 + rest.length = w.calls + (rest.length + 1) := by omega
      rw [hc]
  · intro α encBytes img
    rfl

theorem fallbackConcatenation_witness :
    (okWriter Nat).noFail
    ∧ encodeAnimationFallback (singleWriteEncode (fun _ => [1, 2])) (okWriter Nat)
        [testFrame, testFrame]
      = ({ written := ([testFrame, testFrame].map (fun _ => ([1, 2] : List Nat))).flatten,
           failAt := (okWriter Nat).failAt, calls := 2 }, [], none) :=
  ⟨fun _ => rfl,
    fallbackConcatenation.1 Nat (fun _ => [1, 2]) (okWriter Nat) [testFrame, testFrame]
      (fun _ => rfl)⟩

/-! ## GIF lemmas -/

theorem gifEncodeLoop_spec (interval : Int) (frames : List Frame) :
    ∀ g : GoGIF,
      GIFFormat.encodeLoop interval g frames
        = { g with
            numImages := g.numImages + frames.length
            Delay := g.Delay ++ List.replicate frames.length (Int.tdiv interval hundredthSecond)
            Disposal := g.Disposal ++ List.replicate frames.length DisposalBackground } := by
  induction frames with
  | nil => intro g; simp [GIFFormat.encodeLoop]
  | cons f rest ih =>
    intro g
    obtain ⟨n, D, L, Ds, B⟩ := g
    rw [GIFFormat.encodeLoop, ih]
    simp [GoGIF.mk.injEq, List.replicate_succ]
    omega

/-- C9: for every pacing interval, the GIF encoder's per-frame delay is the
interval divided (truncating) by `time.Second/100` — in particular 50 for a
500 ms interval and 0 for a zero interval — and the assembled GIF's loop
count is 0, the `image/gif` value meaning infinite looping. -/
theorem gifDelayAndLoop :
    (∀ (frames : List Frame) (interval : Int),
        (GIFFormat.EncodeAnimation frames interval).Delay
            = List.replicate frames.length (Int.tdiv interval hundredthSecond)
          ∧ (GIFFormat.EncodeAnimation frames interval).LoopCount = gifLoopForever
          ∧ (GIFFormat.EncodeAnimation frames interval).Disposal
            = List.replicate frames.length DisposalBackground)
    ∧ (∀ img : Frame, (GIFFormat.EncodeAnimation [img] 500000000).Delay = [50])
    ∧ (∀ img : Frame, (GIFFormat.EncodeAnimation [img] 0).Delay = [0]) := by
  refine ⟨?_, ?_, ?_⟩
  · intro frames interval
    rw [GIFFormat.EncodeAnimation, gifEncodeLoop_spec]
    exact ⟨by simp, rfl, by simp⟩
  · intro img
    rw [GIFFormat.EncodeAnimation, gifEncodeLoop_spec]
    simp
    decide
  · intro img
    rw [GIFFormat.EncodeAnimation, gifEncodeLoop_spec]
    simp

/-! ## ANSI terminal display lemmas -/

/-- C3 counterexample: two successive `Encode` calls on the same fresh
`AnsiDisplay` instance each emit the full-clear sequence — the second frame
encoded through the instance is not preceded by the cursor-home escape and
the clear is re-emitted, because `Encode`'s value receiver discards the
`initDone` update made by `EncodeAnimation`. -/
theorem ansiEncodeReclears_cex :
    ((AnsiDisplay.Encode
        (AnsiDisplay.Encode ⟨false⟩ (okWriter String) testFrame).1
        (AnsiDisplay.Encode ⟨false⟩ (okWriter String) testFrame).2.1
        testFrame).2.1).written
      = [clearSeq ++ ansiBody testFrame, clearSeq ++ ansiBody testFrame]
    ∧ clearSeq ++ ansiBody testFrame ≠ homeSeq ++ ansiBody testFrame := by
  constructor
  · rfl
  · decide

/-- C3 (amended): state persists through `EncodeAnimation` (pointer
receiver): a run over a stream prefixes its first frame with the clear
sequence when `initDone` is still false and every later output with the
cursor-home escape, leaving `initDone` set, so the clear is emitted at most
once across all `EncodeAnimation` calls on one instance; `Encode`, however,
uses a value receiver and returns the instance state unchanged, so every
`Encode` call on a fresh instance re-emits the clear. -/
theorem ansiClearState :
    (∀ (d : AnsiDisplay) (w : Writer String) (frames : List Frame), w.noFail →
        AnsiDisplay.EncodeAnimation d w frames
          = (if frames.isEmpty then d else ⟨true⟩,
             { written := w.written ++ ansiOutputs d.initDone frames, failAt := w.failAt,
               calls := w.calls + frames.length }, [], none))
    ∧ (∀ img : Frame, ansiFrame false img = clearSeq ++ ansiBody img)
    ∧ (∀ img : Frame, ansiFrame true img = homeSeq ++ ansiBody img)
    ∧ (∀ (frames : List Frame) (s : String), s ∈ ansiOutputs true frames →
        ∃ img, s = homeSeq ++ ansiBody img)
    ∧ (∀ (d : AnsiDisplay) (w : Writer String) (img : Frame),
        (AnsiDisplay.Encode d w img).1 = d)
    ∧ clearSeq ≠ homeSeq := by
  refine ⟨?_, fun _ => rfl, fun _ => rfl, ?_, fun _ _ _ => rfl, by decide⟩
  · intro d w frames h
    induction frames generalizing d w with
    | nil => simp [AnsiDisplay.EncodeAnimation, ansiOutputs]
    | cons img rest ih =>
      rw [ansiEncodeAnimation_cons, write_ok w h]
      dsimp only
      rw [ih ⟨true⟩ (⟨w.written ++ [ansiFrame d.initDone img], w.failAt, w.calls + 1⟩ :
        Writer String) h]
      simp only [List.isEmpty_cons, ansiOutputs, List.append_assoc, List.singleton_append,
        List.length_cons, ite_self, Bool.false_eq_true, if_false]
      have hc : w.calls + 1 + rest.length = w.calls + (rest.length + 1) := by omega
      rw [hc]
  · intro frames s hs
    induction frames with
    | nil => simp [ansiOutputs] at hs
    | cons img rest ih =>
      simp only [ansiOutputs, List.mem_cons] at hs
      rcases hs with h1 | h2
      · exact ⟨img, h1⟩
      · exact ih h2

theorem ansiClearState_witness :
    (okWriter String).noFail
    ∧ AnsiDisplay.EncodeAnimation ⟨false⟩ (okWriter String) [testFrame, testFrame]
      = (if ([testFrame, testFrame] : List Frame).isEmpty then ⟨false⟩ else ⟨true⟩,
         { written := (okWriter String).written
             ++ ansiOutputs (AnsiDisplay.mk false).initDone [testFrame, testFrame],
           failAt := (okWriter String).failAt,
           calls := (okWriter String).calls + ([testFrame, testFrame] : List Frame).length },
         [], none) :=
  ⟨fun _ => rfl,
    ansiClearState.1 ⟨false⟩ (okWriter String) [testFrame, testFrame] (fun _ => rfl)⟩

/-- C4 counterexample: for the 1×1 frame (odd height), the single output row
ends its cell with the literal `"\x1b[48;2;0m"` background escape, not with
the three-component escape `"\x1b[48;2;0;0;0m"` that a black pixel row would
produce. -/
theorem ansiOddRow_cex :
    ansiRow testFrame 0
      = fgEscape ⟨0, 0, 0, 65535⟩ ++ bgOddEscape ++ "▀" ++ "\u001b[0m\n"
    ∧ ansiRow testFrame 0
      ≠ fgEscape ⟨0, 0, 0, 65535⟩ ++ bgEscape ⟨0, 0, 0, 65535⟩ ++ "▀" ++ "\u001b[0m\n" := by
  constructor
  · decide
  · decide

/-- C4 (amended): for every odd-height frame, the last character-cell row's
background escape for the missing partner row is the literal `"\x1b[48;2;0m"`
— a truncated sequence carrying a single zero component — which differs from
the three-component black escape `"\x1b[48;2;0;0;0m"` a black pixel row
produces; rows with a partner use the full three-component escape. -/
theorem ansiOddRowEscape :
    (∀ (img : Frame) (x : Nat), img.height % 2 = 1 →
        ansiCell img (img.height / 2) x
          = fgEscape (img.At x (img.height - 1)) ++ bgOddEscape ++ "▀")
    ∧ bgOddEscape = "\u001b[48;2;0m"
    ∧ bgOddEscape ≠ bgEscape ⟨0, 0, 0, 65535⟩
    ∧ (∀ (img : Frame) (y x : Nat), 2 * y + 1 < img.height →
        ansiCell img y x
          = fgEscape (img.At x (2 * y)) ++ bgEscape (img.At x (2 * y + 1)) ++ "▀") := by
  refine ⟨?_, rfl, by decide, ?_⟩
  · intro img x h
    have h2 : ¬(2 * (img.height / 2) + 1 < img.height) := by omega
    have h3 : (2 * ((img.height / 2 : Nat) : Int)) = (img.height : Int) - 1 := by omega
    simp only [ansiCell]
    rw [if_neg h2, h3]
  · intro img y x h
    simp only [ansiCell]
    rw [if_pos h]

/-! ## Raw RGB24 / RGBA32 lemmas -/

theorem foldlM_invariant {β γ : Type} (l : List β) (f : γ → β → Option γ) (P : γ → Prop)
    (hstep : ∀ g b, P g → b ∈ l → ∃ g', f g b = some g' ∧ P g') :
    ∀ g, P g → ∃ g', l.foldlM f g = some g' ∧ P g' := by
  induction l with
  | nil => intro g hg; exact ⟨g, rfl, hg⟩
  | cons b rest ih =>
    intro g hg
    obtain ⟨g1, hf, hg1⟩ := hstep g b hg (List.mem_cons_self b rest)
    obtain ⟨g2, hfold, hg2⟩ :=
      ih (fun g b hg hb => hstep g b hg (List.mem_cons_of_mem _ hb)) g1 hg1
    refine ⟨g2, ?_, hg2⟩
    rw [List.foldlM_cons, hf]
    simpa using hfold

theorem bufSet_some (l : List Nat) (i : Int) (v : Nat) (h0 : 0 ≤ i) (h1 : i.toNat < l.length) :
    bufSet l i v = some (l.set i.toNat v) := by
  simp [bufSet, h0, h1]

theorem listGetI_isSome (l : List Nat) (i : Int) (h0 : 0 ≤ i) (h1 : i.toNat < l.length) :
    (listGetI l i).isSome = true := by
  rw [listGetI, if_neg (by omega)]
  simp [List.get?_eq_getElem?, List.getElem?_eq_getElem h1]

theorem rgb24GenericPixel_ok (img : Frame) (buf : List Nat) (dy dx : Nat)
    (hA : 0 ≤ pixIndex img dy dx)
    (hB : (pixIndex img dy dx).toNat * 3 + 2 < buf.length) :
    ∃ b', rgb24GenericPixel img buf dy dx = some b' ∧ b'.length = buf.length := by
  set i := pixIndex img dy dx with hidef
  set c := img.At (img.minX + dx) (img.minY + dy) with hcdef
  have e : rgb24GenericPixel img buf dy dx
      = some (((buf.set (i*3).toNat (byteShift8 c.r)).set
                ((i*3+1)).toNat (byteShift8 c.g)).set
                ((i*3+2)).toNat (byteShift8 c.b)) := by
    simp only [rgb24GenericPixel, ← hidef, ← hcdef]
    rw [bufSet_some buf (i*3) (byteShift8 c.r) (by omega) (by omega)]
    simp only [Option.bind_eq_bind, Option.some_bind]
    rw [bufSet_some _ (i*3+1) (byteShift8 c.g) (by omega) (by simp [List.length_set]; omega)]
    simp only [Option.bind_eq_bind, Option.some_bind]
    rw [bufSet_some _ (i*3+2) (byteShift8 c.b) (by omega) (by simp [List.length_set]; omega)]
  exact ⟨_, e, by simp [List.length_set]⟩

theorem rgb24FastPixel_ok (pix buf : List Nat) (i : Int)
    (hA : 0 ≤ i) (hR : i.toNat * 4 + 2 < pix.length) (hW : i.toNat * 3 + 2 < buf.length) :
    ∃ b', rgb24FastPixel pix buf i = some b' ∧ b'.length = buf.length := by
  obtain ⟨v1, e1⟩ := Option.isSome_iff_exists.mp (listGetI_isSome pix (i*4) (by omega) (by omega))
  obtain ⟨v2, e2⟩ :=
    Option.isSome_iff_exists.mp (listGetI_isSome pix (i*4+1) (by omega) (by omega))
  obtain ⟨v3, e3⟩ :=
    Option.isSome_iff_exists.mp (listGetI_isSome pix (i*4+2) (by omega) (by omega))
  have e : rgb24FastPixel pix buf i
      = some (((buf.set (i*3).toNat v1).set ((i*3+1)).toNat v2).set ((i*3+2)).toNat v3) := by
    simp only [rgb24FastPixel]
    rw [e1, e2, e3]
    simp only [Option.bind_eq_bind, Option.some_bind]
    rw [bufSet_some buf (i*3) v1 (by omega) (by omega)]
    simp only [Option.bind_eq_bind, Option.some_bind]
    rw [bufSet_some _ (i*3+1) v2 (by omega) (by simp [List.length_set]; omega)]
    simp only [Option.bind_eq_bind, Option.some_bind]
    rw [bufSet_some _ (i*3+2) v3 (by omega) (by simp [List.length_set]; omega)]
  exact ⟨_, e, by simp [List.length_set]⟩

theorem foldPixels_ok (W H : Nat) (f : List Nat → Nat → Nat → Option (List Nat)) (L : Nat)
    (hstep : ∀ b dy dx, b.length = L → dy < H → dx < W → ∃ b', f b dy dx = some b' ∧ b'.length = L)
    (buf : List Nat) (hb : buf.length = L) :
    ∃ b', foldPixels W H f buf = some b' ∧ b'.length = L := by
  unfold foldPixels
  refine foldlM_invariant (List.range H) _ (fun b => b.length = L) ?_ buf hb
  intro b dy hbL hdy
  refine foldlM_invariant (List.range W) _ (fun b2 => b2.length = L) ?_ b hbL
  intro b2 dx hb2 hdx
  exact hstep b2 dy dx hb2 (List.mem_range.mp hdy) (List.mem_range.mp hdx)

theorem pixIndex_origin (img : Frame) (h0 : img.minX = 0) (h1 : img.minY = 0)
    (dy dx : Nat) (hdy : dy < img.height) (hdx : dx < img.width) :
    0 ≤ pixIndex img dy dx ∧ (pixIndex img dy dx).toNat < img.width * img.height := by
  have hn : dy * img.width + dx < img.width * img.height := by
    calc dy * img.width + dx < dy * img.width + img.width := by omega
    _ = (dy + 1) * img.width := by ring
    _ ≤ img.height * img.width := Nat.mul_le_mul_right _ (by omega)
    _ = img.width * img.height := Nat.mul_comm _ _
  have he : pixIndex img dy dx = ((dy * img.width + dx : Nat) : Int) := by
    simp only [pixIndex, h0, h1]
    push_cast
    ring
  rw [he]
  omega

theorem rgb24Encode_origin (img : Frame) (h0 : img.minX = 0) (h1 : img.minY = 0)
    (hpix : ∀ pix, img.rgbaPix = some pix → pix.length = img.width * img.height * 4) :
    ∃ buf, rgb24Encode img = some buf ∧ buf.length = img.width * img.height * 3 := by
  rcases hp : img.rgbaPix with _ | pix
  · simp only [rgb24Encode, hp]
    refine foldPixels_ok img.width img.height _ (img.width * img.height * 3) ?_ _ (by simp)
    intro b dy dx hb hdy hdx
    obtain ⟨hA, hB⟩ := pixIndex_origin img h0 h1 dy dx hdy hdx
    obtain ⟨b', e, hl⟩ := rgb24GenericPixel_ok img b dy dx hA (by omega)
    exact ⟨b', e, by omega⟩
  · have hlen := hpix pix hp
    simp only [rgb24Encode, hp]
    refine foldPixels_ok img.width img.height _ (img.width * img.height * 3) ?_ _ (by simp)
    intro b dy dx hb hdy hdx
    obtain ⟨hA, hB⟩ := pixIndex_origin img h0 h1 dy dx hdy hdx
    obtain ⟨b', e, hl⟩ := rgb24FastPixel_ok pix b (pixIndex img dy dx) hA (by omega) (by omega)
    exact ⟨b', e, by omega⟩

theorem flatten_map_length {β : Type} (f : β → List Nat) (k : Nat) :
    ∀ l : List β, (∀ b ∈ l, (f b).length = k) → ((l.map f).flatten).length = l.length * k := by
  intro l
  induction l with
  | nil => simp
  | cons b rest ih =>
    intro h
    simp only [List.map_cons, List.flatten_cons, List.length_append, List.length_cons,
      h b (List.mem_cons_self b rest), ih (fun x hx => h x (List.mem_cons_of_mem _ hx))]
    ring

theorem flatten_replicate_length (n : Nat) (l : List Nat) :
    ((List.replicate n l).flatten).length = n * l.length := by
  induction n with
  | zero => simp
  | succ m ih =>
    rw [List.replicate_succ, List.flatten_cons, List.length_append, ih, Nat.succ_mul]
    omega

/-- C8: encoding a solid-color W×H frame writes exactly W·H·3 bytes (RGB24)
resp. W·H·4 bytes (RGBA32) to the sink in a single `Write` with no header or
other extraneous bytes, on both the `*image.RGBA` fast path and the generic
path. -/
theorem rawEncodeByteCount :
    ∀ (W H : Nat) (c : Pixel),
      (∃ buf, rgb24Encode (solidFrame W H c) = some buf ∧ buf.length = W * H * 3
        ∧ RGB24Format.Encode (okWriter Nat) (solidFrame W H c) = some ((okWriter Nat).write buf)
        ∧ ((okWriter Nat).write buf).1.written = buf
        ∧ ((okWriter Nat).write buf).2 = none)
      ∧ (∃ buf, rgb24Encode (solidFrameRGBA W H c) = some buf ∧ buf.length = W * H * 3)
      ∧ ((rgba32Encode (solidFrame W H c)).length = W * H * 4
        ∧ RGBA32Format.Encode (okWriter Nat) (solidFrame W H c)
            = (okWriter Nat).write (rgba32Encode (solidFrame W H c))
        ∧ ((okWriter Nat).write (rgba32Encode (solidFrame W H c))).1.written
            = rgba32Encode (solidFrame W H c))
      ∧ (rgba32Encode (solidFrameRGBA W H c)).length = W * H * 4 := by
  intro W H c
  refine ⟨?_, ?_, ⟨?_, rfl, rfl⟩, ?_⟩
  · obtain ⟨buf, he, hl⟩ :=
      rgb24Encode_origin (solidFrame W H c) rfl rfl (fun pix h => nomatch h)
    exact ⟨buf, he, hl, by simp [RGB24Format.Encode, he], rfl, rfl⟩
  · have hp4 : ∀ pix, (solidFrameRGBA W H c).rgbaPix = some pix →
        pix.length = (solidFrameRGBA W H c).width * (solidFrameRGBA W H c).height * 4 := by
      intro pix h
      have hpe : flatPix W H c = pix := by
        simpa [solidFrameRGBA, solidFrame] using h
      rw [← hpe]
      have h4 : flatPix W H c
          = (List.replicate (W * H)
              [byteShift8 c.r, byteShift8 c.g, byteShift8 c.b, byteShift8 c.a]).flatten := rfl
      rw [h4, flatten_replicate_length]
      simp [solidFrameRGBA, solidFrame]
    exact rgb24Encode_origin (solidFrameRGBA W H c) rfl rfl hp4
  · have h3 : rgba32Encode (solidFrame W H c)
        = ((List.range (W * H)).map (fun _ =>
            [byteShift8 c.r, byteShift8 c.g, byteShift8 c.b, byteShift8 c.a])).flatten := rfl
    rw [h3, flatten_map_length
      (fun _ => [byteShift8 c.r, byteShift8 c.g, byteShift8 c.b, byteShift8 c.a]) 4
      (List.range (W * H)) (fun b _ => rfl)]
    simp
  · have h4 : rgba32Encode (solidFrameRGBA W H c)
        = (List.replicate (W * H)
            [byteShift8 c.r, byteShift8 c.g, byteShift8 c.b, byteShift8 c.a]).flatten := rfl
    rw [h4, flatten_replicate_length]
    simp

/-- C10: for every input frame whose bounds minimum is the origin (and whose
`*image.RGBA` pixel data, when present, has the standard `4·W·H` length), the
pixel-index computation `i = y·width + x` of `RGB24Format.Encode` stays within
both the source pixel data and the W·H·3 output buffer, so every slice access
succeeds; the origin precondition is required: a frame with bounds minimum
`(1,0)` makes the code index out of range (a Go panic, `none` here). -/
theorem rgb24OriginSafety :
    (∀ img : Frame, img.minX = 0 → img.minY = 0 →
        (∀ pix, img.rgbaPix = some pix → pix.length = img.width * img.height * 4) →
        ∃ buf, rgb24Encode img = some buf ∧ buf.length = img.width * img.height * 3)
    ∧ rgb24Encode offsetFrame = none := by
  constructor
  · exact fun img h0 h1 hp => rgb24Encode_origin img h0 h1 hp
  · rfl

theorem rgb24OriginSafety_witness :
    ((solidFrame 1 1 ⟨0, 0, 0, 0⟩).minX = 0 ∧ (solidFrame 1 1 ⟨0, 0, 0, 0⟩).minY = 0)
    ∧ ∃ buf, rgb24Encode (solidFrame 1 1 ⟨0, 0, 0, 0⟩) = some buf
        ∧ buf.length = (solidFrame 1 1 ⟨0, 0, 0, 0⟩).width
            * (solidFrame 1 1 ⟨0, 0, 0, 0⟩).height * 3 :=
  ⟨⟨rfl, rfl⟩,
    rgb24OriginSafety.1 (solidFrame 1 1 ⟨0, 0, 0, 0⟩) rfl rfl (fun _pix h => nomatch h)⟩

/-! ## IMU / kinect lifecycle claims -/

/-- C1: the claim fails on the IMU provider.  In every reachable state of the
IMU transition system `loopClosed` is false — the poll loop never observes
`imu.closed` and nothing ever closes `imu.loopClosed` — so once `Close` has
closed `imu.closed` and blocks on `<-imu.loopClosed`, its return transition
is never enabled: `Close` never terminates while the loop runs.  The kinect
provider implements the handshake: with `closed` observed at the loop head,
two loop steps reach a state with `loopClosed = true`, after which a waiting
`Close` is enabled. -/
theorem imuCloseNeverReturns :
    (∀ (d : Nat) (s : IMUState), IMUReachable (imuInit d) s → s.loopClosed = false)
    ∧ (∀ (d : Nat) (s : IMUState), IMUReachable (imuInit d) s → s.closePc = .waiting →
        imuStep s .closeReturn = none)
    ∧ (∀ s : KinState, s.loopPc = .check → s.closedCh = true →
        ∃ s1 s2, kinStep s (.loopCheck true) = some s1 ∧ kinStep s1 .loopTeardown = some s2
          ∧ s2.loopClosed = true
          ∧ (s2.closePc = .waiting → (kinStep s2 .closeReturn).isSome = true)) := by
  have hloop : ∀ (d : Nat) (s : IMUState), IMUReachable (imuInit d) s →
      s.loopClosed = false := by
    intro d s h
    induction h with
    | refl => rfl
    | step hr hstep ih =>
      rename_i s0 s1 a
      cases a with
      | fetchOk d2 =>
        simp only [imuStep] at hstep
        cases hstep
        simpa using ih
      | fetchErr =>
        simp only [imuStep] at hstep
        cases hstep
        exact ih
      | closeSignal =>
        simp only [imuStep] at hstep
        split at hstep
        · cases hstep
          simpa using ih
        · cases hstep
      | closeReturn =>
        simp only [imuStep] at hstep
        split at hstep
        · cases hstep
          simpa using ih
        · cases hstep
  refine ⟨hloop, ?_, ?_⟩
  · intro d s h hw
    simp [imuStep, hloop d s h]
  · intro s h1 h2
    refine ⟨{ s with loopPc := .teardown },
            { s with loopPc := .done, loopClosed := true }, ?_, ?_, rfl, ?_⟩
    · simp [kinStep, h1, h2]
    · simp [kinStep]
    · intro hw
      simp only at hw
      simp [kinStep, hw]

theorem imuCloseNeverReturns_witness :
    (IMUReachable (imuInit 0) ⟨true, false, 0, .waiting⟩
      ∧ imuStep ⟨true, false, 0, .waiting⟩ .closeReturn = none)
    ∧ ((⟨true, false, .check, .waiting⟩ : KinState).loopPc = .check
      ∧ ∃ s1 s2, kinStep (⟨true, false, .check, .waiting⟩ : KinState) (.loopCheck true) = some s1
          ∧ kinStep s1 .loopTeardown = some s2 ∧ s2.loopClosed = true
          ∧ (s2.closePc = .waiting → (kinStep s2 .closeReturn).isSome = true)) :=
  have hr : IMUReachable (imuInit 0) ⟨true, false, 0, .waiting⟩ :=
    IMUReachable.step (a := .closeSignal) IMUReachable.refl (by decide)
  ⟨⟨hr, imuCloseNeverReturns.2.1 0 ⟨true, false, 0, .waiting⟩ hr rfl⟩,
   ⟨rfl, imuCloseNeverReturns.2.2 ⟨true, false, .check, .waiting⟩ rfl rfl⟩⟩

/-- C6: constructing the IMU provider performs one synchronous fetch whose
failure aborts construction with that error and whose success seeds the
snapshot; thereafter each poll-loop iteration with a successful fetch
replaces the whole snapshot in one atomic (lock-guarded) transition, while a
failed fetch leaves the state completely unchanged and surfaces no error —
`PreRender` always reads the current snapshot. -/
theorem imuFetchPolicy :
    (∀ e : Err, newIMUPeripheral (.error e) = .error e)
    ∧ (∀ d : Nat, newIMUPeripheral (.ok d) = .ok (imuInit d))
    ∧ (∀ (s : IMUState) (d : Nat), imuStep s (.fetchOk d) = some { s with currentValue := d })
    ∧ (∀ s : IMUState, imuStep s .fetchErr = some s)
    ∧ (∀ s : IMUState, IMU_values.PreRender s = s.currentValue) :=
  ⟨fun _ => rfl, fun _ => rfl, fun _ _ => rfl, fun _ => rfl, fun _ => rfl⟩

/-! ## Pipeline lemmas -/

theorem pstep_cancel_mono (cfg : PipeConfig) {s s' : PipeState} {a : PipeAct}
    (h : pstep cfg s a = some s') (hc : s.cancelled = true) : s'.cancelled = true := by
  cases a with
  | sig =>
    simp only [pstep] at h
    split at h
    · simp only [Option.some.injEq] at h; subst h; rfl
    · exact Option.noConfusion h
  | prodSend =>
    simp only [pstep, prodSendStep] at h
    split at h
    · simp only [Option.some.injEq] at h; subst h; exact hc
    · exact Option.noConfusion h
  | prodExit =>
    simp only [pstep, prodExitStep] at h
    split at h
    · simp only [Option.some.injEq] at h; subst h; exact hc
    · exact Option.noConfusion h
  | mainFinish =>
    simp only [pstep] at h
    split at h
    · simp only [Option.some.injEq] at h; subst h; exact hc
    · exact Option.noConfusion h
  | cntRecv =>
    rcases himg : s.img with _ | ⟨v, rest⟩ <;> simp only [pstep, himg] at h
    · exact Option.noConfusion h
    · split at h
      · simp only [Option.some.injEq] at h; subst h; exact hc
      · exact Option.noConfusion h
  | cntExitLoop =>
    simp only [pstep] at h
    split at h
    · simp only [Option.some.injEq] at h; subst h; exact hc
    · exact Option.noConfusion h
  | cntClose =>
    simp only [pstep] at h
    split at h
    · simp only [Option.some.injEq] at h; subst h; exact hc
    · exact Option.noConfusion h
  | handoffEnc =>
    rcases hheld : s.held with _ | v <;> simp only [pstep, hheld] at h
    · exact Option.noConfusion h
    · split at h
      · simp only [Option.some.injEq] at h; subst h
        simp only [hc]
        split <;> rfl
      · exact Option.noConfusion h
  | handoffDrain =>
    rcases hheld : s.held with _ | v <;> simp only [pstep, hheld] at h
    · exact Option.noConfusion h
    · split at h
      · simp only [Option.some.injEq] at h; subst h
        simp only [hc]
        split <;> rfl
      · exact Option.noConfusion h
  | encFail =>
    simp only [pstep] at h
    split at h
    · simp only [Option.some.injEq] at h; subst h; rfl
    · exact Option.noConfusion h
  | encRecvClosed =>
    simp only [pstep] at h
    split at h
    · simp only [Option.some.injEq] at h; subst h; exact hc
    · exact Option.noConfusion h
  | drainClosed =>
    simp only [pstep] at h
    split at h
    · simp only [Option.some.injEq] at h; subst h; exact hc
    · exact Option.noConfusion h

theorem pMeasure_dec (cfg : PipeConfig) {s s' : PipeState} {a : PipeAct}
    (hc : s.cancelled = true) (h : pstep cfg s a = some s') : pMeasure s' < pMeasure s := by
  cases a with
  | sig =>
    simp only [pstep] at h
    split at h
    · rename_i hg
      rw [hc] at hg
      exact absurd hg.2 (by simp)
    · exact Option.noConfusion h
  | prodSend =>
    simp only [pstep, prodSendStep] at h
    split at h
    · rename_i hg
      rw [hc] at hg
      exact absurd hg.2.1 (by simp)
    · exact Option.noConfusion h
  | prodExit =>
    simp only [pstep, prodExitStep] at h
    split at h
    · rename_i hg
      simp only [Option.some.injEq] at h; subst h
      simp only [pMeasure, hg.1]
      omega
    · exact Option.noConfusion h
  | mainFinish =>
    simp only [pstep] at h
    split at h
    · rename_i hg
      simp only [Option.some.injEq] at h; subst h
      simp only [pMeasure, hg.1]
      omega
    · exact Option.noConfusion h
  | cntRecv =>
    rcases himg : s.img with _ | ⟨v, rest⟩ <;> simp only [pstep, himg] at h
    · exact Option.noConfusion h
    · split at h
      · rename_i hg
        simp only [Option.some.injEq] at h; subst h
        simp only [pMeasure, hg, himg, List.length_cons]
        omega
      · exact Option.noConfusion h
  | cntExitLoop =>
    simp only [pstep] at h
    split at h
    · rename_i hg
      simp only [Option.some.injEq] at h; subst h
      simp only [pMeasure, hg.1, hg.2.1, List.length_nil]
      omega
    · exact Option.noConfusion h
  | cntClose =>
    simp only [pstep] at h
    split at h
    · rename_i hg
      simp only [Option.some.injEq] at h; subst h
      simp only [pMeasure, hg]
      omega
    · exact Option.noConfusion h
  | handoffEnc =>
    rcases hheld : s.held with _ | v <;> simp only [pstep, hheld] at h
    · exact Option.noConfusion h
    · split at h
      · rename_i hg
        simp only [Option.some.injEq] at h; subst h
        by_cases hN : s.frame = cfg.N <;> by_cases hf : cfg.failPlan s.encList.length <;>
          simp [pMeasure, hg.1, hg.2, hN, hf] <;> omega
      · exact Option.noConfusion h
  | handoffDrain =>
    rcases hheld : s.held with _ | v <;> simp only [pstep, hheld] at h
    · exact Option.noConfusion h
    · split at h
      · rename_i hg
        simp only [Option.some.injEq] at h; subst h
        by_cases hN : s.frame = cfg.N <;>
          simp [pMeasure, hg.1, hg.2, hN]
      · exact Option.noConfusion h
  | encFail =>
    simp only [pstep] at h
    split at h
    · rename_i hg
      simp only [Option.some.injEq] at h; subst h
      simp only [pMeasure, hg]
      omega
    · exact Option.noConfusion h
  | encRecvClosed =>
    simp only [pstep] at h
    split at h
    · rename_i hg
      simp only [Option.some.injEq] at h; subst h
      simp only [pMeasure, hg.1]
      omega
    · exact Option.noConfusion h
  | drainClosed =>
    simp only [pstep] at h
    split at h
    · rename_i hg
      simp only [Option.some.injEq] at h; subst h
      simp only [pMeasure, hg.1]
      omega
    · exact Option.noConfusion h

theorem pinv_init (cfg : PipeConfig) : PInv cfg pinit := by
  refine ⟨?_, ?_, ?_, ?_, ?_, ?_, ?_, ?_, ?_, ?_, ?_, ?_, ?_, ?_, ?_⟩ <;>
    simp [pinit, List.range']

theorem pinv_step (cfg : PipeConfig) {s s' : PipeState} {a : PipeAct}
    (hInv : PInv cfg s) (h : pstep cfg s a = some s') : PInv cfg s' := by
  obtain ⟨i1, i2a, i2b, i3, i4, i5, i9, i10, i11, i12, i13, i6a, i6b, i6c, i14⟩ := hInv
  cases a with
  | sig =>
    simp only [pstep] at h
    split at h
    · rename_i hg
      simp only [Option.some.injEq] at h; subst h
      refine ⟨i1, i2a, i2b, (fun _ => Or.inl rfl), i4, i5, (fun _ => rfl), i10, i11, i12, i13,
        i6a, i6b, i6c, ?_⟩
      intro hcd
      rcases i14 hcd with ⟨_, h2, h3⟩ | h2
      · exact Or.inl ⟨rfl, h2, h3⟩
      · exact Or.inr h2
    · exact Option.noConfusion h
  | prodSend =>
    simp only [pstep, prodSendStep] at h
    split at h
    · rename_i hg
      simp only [Option.some.injEq] at h; subst h
      refine ⟨i1, i2a, i2b, i3, i4, i5, i9, i10, i11, i12, i13, ?_, i6b, i6c, ?_⟩
      · have ha := i6a.1
        have hb := i6a.2
        dsimp only
        constructor
        · have hk : s.nextId + 1 - s.frame = (s.nextId - s.frame) + 1 := by omega
          have hv2 : s.frame + (s.nextId - s.frame) = s.nextId := by omega
          rw [hk, List.range'_1_concat, hv2, ha]
        · omega
      · intro hcd
        rcases i3 hcd with hc | hic
        · rw [hg.2.1] at hc
          exact absurd hc (by simp)
        · rcases i2a hic with hm | hm <;> rw [hg.1] at hm <;> exact nomatch hm
    · exact Option.noConfusion h
  | prodExit =>
    simp only [pstep, prodExitStep] at h
    split at h
    · rename_i hg
      simp only [Option.some.injEq] at h; subst h
      exact ⟨i1, (fun _ => Or.inl rfl), (fun _ => rfl), (fun _ => Or.inr rfl), i4, i5,
        (fun _ => hg.2), i10, (fun hm => nomatch hm), i12, i13, i6a, i6b, i6c, i14⟩
    · exact Option.noConfusion h
  | mainFinish =>
    simp only [pstep] at h
    split at h
    · rename_i hg
      simp only [Option.some.injEq] at h; subst h
      exact ⟨i1, (fun _ => Or.inr rfl), (fun _ => i2b (Or.inl hg.1)), i3, i4, i5,
        (fun _ => i9 (Or.inl hg.1)), i10, (fun _ => ⟨hg.2.1, hg.2.2⟩), i12, i13, i6a, i6b,
        i6c, i14⟩
    · exact Option.noConfusion h
  | cntRecv =>
    rcases himg : s.img with _ | ⟨v, rest⟩ <;> simp only [pstep, himg] at h
    · exact Option.noConfusion h
    · split at h
      · rename_i hg
        simp only [Option.some.injEq] at h; subst h
        have ha := i6a.1
        have hb := i6a.2
        rw [himg] at ha
        have hne : s.nextId - s.frame ≠ 0 := by
          intro h0
          rw [h0] at ha
          simp [List.range'] at ha
        obtain ⟨k, hk⟩ : ∃ k, s.nextId - s.frame = k + 1 := ⟨s.nextId - s.frame - 1, by omega⟩
        rw [hk, List.range'_succ] at ha
        simp only [List.cons.injEq] at ha
        obtain ⟨hv, hrest⟩ := ha
        refine ⟨(fun hcs => nomatch (hg.symm.trans (i1 hcs))), i2a, i2b,
          (fun hc => hc.elim (fun hc2 => nomatch hc2) (fun hc2 => nomatch hc2)), i4, i5, i9,
          (fun hc => nomatch hc), (fun hm => nomatch (hg.symm.trans (i11 hm).1)), i12, i13,
          ?_, ?_, ?_, (fun hc => hc.elim (fun hc2 => nomatch hc2) (fun hc2 => nomatch hc2))⟩
        · dsimp only
          constructor
          · have hk2 : s.nextId - (s.frame + 1) = k := by omega
            rw [hk2, hrest]
          · omega
        · intro _
          dsimp only
          constructor
          · have hfr : s.frame + 1 - 1 = s.frame := by omega
            rw [hfr, hv]
          · omega
        · dsimp only
          rw [if_pos rfl]
          have hfr : s.frame + 1 - 1 = s.frame := by omega
          rw [hfr, i6c,
            if_neg (fun hf : s.cntPc = CntPc.csend => nomatch (hg.symm.trans hf))]
      · exact Option.noConfusion h
  | cntExitLoop =>
    simp only [pstep] at h
    split at h
    · rename_i hg
      simp only [Option.some.injEq] at h; subst h
      have hfn : s.frame = s.nextId := by
        have ha := i6a.1
        have hb := i6a.2
        rw [hg.2.1] at ha
        have := List.range'_eq_nil.mp ha.symm
        omega
      refine ⟨(fun hcs => nomatch (hg.1.symm.trans (i1 hcs))), i2a, i2b,
        (fun _ => Or.inr hg.2.2), i4, i5, i9, (fun hc => nomatch hc),
        (fun hm => nomatch (hg.1.symm.trans (i11 hm).1)), i12, i13, i6a,
        (fun hc => nomatch hc), ?_, (fun _ => Or.inr ⟨hg.2.1, hfn⟩)⟩
      dsimp only
      rw [if_neg (fun hf : CntPc.cclose = CntPc.csend => nomatch hf), i6c,
        if_neg (fun hf : s.cntPc = CntPc.csend => nomatch (hg.1.symm.trans hf))]
    · exact Option.noConfusion h
  | cntClose =>
    simp only [pstep] at h
    split at h
    · rename_i hg
      simp only [Option.some.injEq] at h; subst h
      refine ⟨(fun _ => rfl), i2a, i2b, (fun _ => i3 (Or.inl hg)), (fun _ => Or.inl rfl),
        (fun _ => rfl), i9, (fun _ => rfl), (fun hm => ⟨rfl, (i11 hm).2⟩), i12, i13, i6a,
        (fun hc => nomatch hc), ?_, (fun _ => i14 (Or.inl hg))⟩
      dsimp only
      rw [if_neg (fun hf : CntPc.cdone = CntPc.csend => nomatch hf), i6c,
        if_neg (fun hf : s.cntPc = CntPc.csend => nomatch (hg.symm.trans hf))]
    · exact Option.noConfusion h
  | handoffEnc =>
    rcases hheld : s.held with _ | v <;> simp only [pstep, hheld] at h
    · exact Option.noConfusion h
    · split at h
      · rename_i hg
        simp only [Option.some.injEq] at h; subst h
        obtain ⟨hv0, hf1⟩ := i6b hg.1
        rw [hheld] at hv0
        simp only [Option.some.injEq] at hv0
        have hdr : s.drainPc = .didle := i13 (Or.inl hg.2)
        have hdl : s.drainList = [] := i12 hdr
        have henc : s.encList = List.range (s.frame - 1) := by
          have h6 := i6c
          rw [if_pos hg.1, hdl, List.append_nil] at h6
          exact h6
        refine ⟨(fun hcs => nomatch (hg.1.symm.trans (i1 hcs))), i2a, i2b, ?_, ?_, i5, ?_,
          ?_, (fun hm => nomatch (hg.1.symm.trans (i11 hm).1)), i12, (fun _ => hdr), i6a,
          ?_, ?_, ?_⟩
        · intro hc
          dsimp only at hc ⊢
          by_cases hN : s.frame = cfg.N
          · rw [if_pos hN]
            exact Or.inl rfl
          · rw [if_neg hN] at hc
            rcases hc with hc | hc <;> exact nomatch hc
        · intro he
          dsimp only at he
          split at he <;> exact nomatch he
        · intro hm
          dsimp only
          by_cases hN : s.frame = cfg.N
          · rw [if_pos hN]
          · rw [if_neg hN]
            exact i9 hm
        · intro hc
          dsimp only at hc
          split at hc <;> exact nomatch hc
        · intro hc
          dsimp only at hc
          split at hc <;> exact nomatch hc
        · dsimp only
          have hne : (if s.frame = cfg.N then CntPc.cclose else CntPc.crecv) ≠ CntPc.csend := by
            split <;> exact (fun hf => nomatch hf)
          rw [if_neg hne, hdl, List.append_nil, henc, hv0]
          have hfr : s.frame - 1 + 1 = s.frame := by omega
          have hr : List.range s.frame = List.range (s.frame - 1) ++ [s.frame - 1] := by
            conv_lhs => rw [← hfr]
            rw [List.range_succ]
          rw [hr]
        · intro hc
          dsimp only at hc ⊢
          by_cases hN : s.frame = cfg.N
          · refine Or.inl ⟨?_, hN, ?_⟩
            · rw [if_pos hN]
            · omega
          · rw [if_neg hN] at hc
            rcases hc with hc | hc <;> exact nomatch hc
      · exact Option.noConfusion h
  | handoffDrain =>
    rcases hheld : s.held with _ | v <;> simp only [pstep, hheld] at h
    · exact Option.noConfusion h
    · split at h
      · rename_i hg
        simp only [Option.some.injEq] at h; subst h
        obtain ⟨hv0, hf1⟩ := i6b hg.1
        rw [hheld] at hv0
        simp only [Option.some.injEq] at hv0
        have hcomb : s.encList ++ (s.drainList ++ [v]) = List.range s.frame := by
          rw [← List.append_assoc, i6c, if_pos hg.1, hv0]
          have hfr : s.frame - 1 + 1 = s.frame := by omega
          have hr : List.range s.frame = List.range (s.frame - 1) ++ [s.frame - 1] := by
            conv_lhs => rw [← hfr]
            rw [List.range_succ]
          rw [hr]
        refine ⟨(fun hcs => nomatch (hg.1.symm.trans (i1 hcs))), i2a, i2b, ?_,
          (fun _ => Or.inr (Or.inl hg.2)), (fun hd => nomatch (hg.2.symm.trans hd)), ?_, ?_,
          (fun hm => nomatch (hg.1.symm.trans (i11 hm).1)),
          (fun hd => nomatch (hg.2.symm.trans hd)),
          (fun he => nomatch ((i13 he).symm.trans hg.2)), i6a, ?_, ?_, ?_⟩
        · intro hc
          dsimp only at hc ⊢
          by_cases hN : s.frame = cfg.N
          · rw [if_pos hN]
            exact Or.inl rfl
          · rw [if_neg hN] at hc
            rcases hc with hc | hc <;> exact nomatch hc
        · intro hm
          dsimp only
          by_cases hN : s.frame = cfg.N
          · rw [if_pos hN]
          · rw [if_neg hN]
            exact i9 hm
        · intro hc
          dsimp only at hc
          split at hc <;> exact nomatch hc
        · intro hc
          dsimp only at hc
          split at hc <;> exact nomatch hc
        · dsimp only
          have hne : (if s.frame = cfg.N then CntPc.cclose else CntPc.crecv) ≠ CntPc.csend := by
            split <;> exact (fun hf => nomatch hf)
          rw [if_neg hne]
          exact hcomb
        · intro hc
          dsimp only at hc ⊢
          by_cases hN : s.frame = cfg.N
          · refine Or.inl ⟨?_, hN, ?_⟩
            · rw [if_pos hN]
            · omega
          · rw [if_neg hN] at hc
            rcases hc with hc | hc <;> exact nomatch hc
      · exact Option.noConfusion h
  | encFail =>
    simp only [pstep] at h
    split at h
    · rename_i hg
      simp only [Option.some.injEq] at h; subst h
      refine ⟨i1, i2a, i2b, (fun _ => Or.inl rfl), (fun _ => Or.inr (Or.inl rfl)),
        (fun hd => nomatch hd), (fun _ => rfl), i10,
        (fun hm => nomatch ((i11 hm).2.symm.trans hg)), (fun hd => nomatch hd),
        (fun he => he.elim (fun he2 => nomatch he2) (fun he2 => nomatch he2)), i6a, i6b,
        i6c, ?_⟩
      intro hcd
      rcases i14 hcd with ⟨_, h2, h3⟩ | h2
      · exact Or.inl ⟨rfl, h2, h3⟩
      · exact Or.inr h2
    · exact Option.noConfusion h
  | encRecvClosed =>
    simp only [pstep] at h
    split at h
    · rename_i hg
      simp only [Option.some.injEq] at h; subst h
      exact ⟨i1, i2a, i2b, i3, (fun _ => Or.inl hg.2), i5, i9, i10,
        (fun hm => ⟨(i11 hm).1, rfl⟩), i12,
        (fun he => he.elim (fun he2 => nomatch he2) (fun he2 => nomatch he2)), i6a, i6b,
        i6c, i14⟩
    · exact Option.noConfusion h
  | drainClosed =>
    simp only [pstep] at h
    split at h
    · rename_i hg
      simp only [Option.some.injEq] at h; subst h
      exact ⟨i1, i2a, i2b, i3, (fun _ => Or.inr (Or.inr rfl)), (fun _ => hg.2), i9, i10, i11,
        (fun hd => nomatch hd), (fun he => nomatch ((i13 he).symm.trans hg.1)), i6a, i6b,
        i6c, i14⟩
    · exact Option.noConfusion h

theorem prun_length_le (cfg : PipeConfig) :
    ∀ (tr : List PipeAct) (s s' : PipeState), s.cancelled = true →
      prun cfg s tr = some s' → tr.length ≤ pMeasure s := by
  intro tr
  induction tr with
  | nil => intro s s' _ _; simp
  | cons a rest ih =>
    intro s s' hc h
    simp only [prun] at h
    rcases hstep : pstep cfg s a with _ | s1
    · rw [hstep] at h; exact Option.noConfusion h
    · rw [hstep] at h
      have hdec := pMeasure_dec cfg hc hstep
      have hmono := pstep_cancel_mono cfg hstep hc
      have := ih s1 s' hmono h
      simp only [List.length_cons]
      omega

theorem ansiOddRowEscape_witness :
    (testFrame.height % 2 = 1
      ∧ ansiCell testFrame (testFrame.height / 2) 0
        = fgEscape (testFrame.At 0 (testFrame.height - 1)) ++ bgOddEscape ++ "▀")
    ∧ (2 * 0 + 1 < testFrame2.height
      ∧ ansiCell testFrame2 0 0
        = fgEscape (testFrame2.At 0 (2 * 0)) ++ bgEscape (testFrame2.At 0 (2 * 0 + 1)) ++ "▀") :=
  ⟨⟨by decide, ansiOddRowEscape.1 testFrame 0 (by decide)⟩,
   ⟨by decide, ansiOddRowEscape.2.2.2 testFrame2 0 0 (by decide)⟩⟩

/-! ## Pipeline reachability, progress and accounting -/

theorem pinv_reachable (cfg : PipeConfig) {s : PipeState} (h : PReachable cfg s) :
    PInv cfg s := by
  induction h with
  | init => exact pinv_init cfg
  | step hr hstep ih => exact pinv_step cfg ih hstep

theorem csend_progress (cfg : PipeConfig) {s : PipeState} (hInv : PInv cfg s)
    (hc : s.cntPc = .csend) : ∃ a, (pstep cfg s a).isSome = true := by
  obtain ⟨hv, hf1⟩ := hInv.i6b hc
  cases henc : s.encPc with
  | erecv =>
    refine ⟨.handoffEnc, ?_⟩
    simp only [pstep, hv]
    rw [if_pos ⟨hc, henc⟩]
    rfl
  | efail =>
    refine ⟨.encFail, ?_⟩
    simp only [pstep]
    rw [if_pos henc]
    rfl
  | edone =>
    rcases hInv.i4 henc with hcs | hdr | hdd
    · exact absurd (hInv.i1 hcs) (fun hf => nomatch (hc.symm.trans hf))
    · refine ⟨.handoffDrain, ?_⟩
      simp only [pstep, hv]
      rw [if_pos ⟨hc, hdr⟩]
      rfl
    · exact absurd (hInv.i1 (hInv.i5 hdd)) (fun hf => nomatch (hc.symm.trans hf))

theorem pipeline_progress (cfg : PipeConfig) (hB : 1 ≤ cfg.B) {s : PipeState}
    (hInv : PInv cfg s) (hnd : ¬ PAllDone s) : ∃ a, (pstep cfg s a).isSome = true := by
  cases hm : s.mainPc with
  | mrun =>
    cases hcanc : s.cancelled with
    | true =>
      refine ⟨.prodExit, ?_⟩
      simp only [pstep, prodExitStep]
      rw [if_pos ⟨hm, hcanc⟩]
      rfl
    | false =>
      cases hcnt : s.cntPc with
      | crecv =>
        cases himg : s.img with
        | nil =>
          refine ⟨.prodSend, ?_⟩
          simp only [pstep, prodSendStep]
          rw [if_pos ⟨hm, hcanc, by simp [himg]; omega⟩]
          rfl
        | cons v rest =>
          refine ⟨.cntRecv, ?_⟩
          simp only [pstep, himg]
          rw [if_pos hcnt]
          rfl
      | csend => exact csend_progress cfg hInv hcnt
      | cclose =>
        refine ⟨.cntClose, ?_⟩
        simp only [pstep]
        rw [if_pos hcnt]
        rfl
      | cdone =>
        rcases hInv.i3 (Or.inr hcnt) with h2 | h2
        · rw [hcanc] at h2
          exact absurd h2 (by simp)
        · rcases hInv.i2a h2 with h3 | h3 <;> rw [hm] at h3 <;> exact nomatch h3
  | mwait =>
    cases hcnt : s.cntPc with
    | crecv =>
      cases himg : s.img with
      | nil =>
        refine ⟨.cntExitLoop, ?_⟩
        simp only [pstep]
        rw [if_pos ⟨hcnt, himg, hInv.i2b (Or.inl hm)⟩]
        rfl
      | cons v rest =>
        refine ⟨.cntRecv, ?_⟩
        simp only [pstep, himg]
        rw [if_pos hcnt]
        rfl
    | csend => exact csend_progress cfg hInv hcnt
    | cclose =>
      refine ⟨.cntClose, ?_⟩
      simp only [pstep]
      rw [if_pos hcnt]
      rfl
    | cdone =>
      cases henc : s.encPc with
      | erecv =>
        refine ⟨.encRecvClosed, ?_⟩
        simp only [pstep]
        rw [if_pos ⟨henc, hInv.i10 hcnt⟩]
        rfl
      | efail =>
        refine ⟨.encFail, ?_⟩
        simp only [pstep]
        rw [if_pos henc]
        rfl
      | edone =>
        cases hdr : s.drainPc with
        | didle =>
          refine ⟨.mainFinish, ?_⟩
          simp only [pstep]
          rw [if_pos ⟨hm, hcnt, henc⟩]
          rfl
        | drun =>
          refine ⟨.drainClosed, ?_⟩
          simp only [pstep]
          rw [if_pos ⟨hdr, hInv.i10 hcnt⟩]
          rfl
        | ddone =>
          refine ⟨.mainFinish, ?_⟩
          simp only [pstep]
          rw [if_pos ⟨hm, hcnt, henc⟩]
          rfl
  | mdone =>
    have h11 := hInv.i11 hm
    have hdr : s.drainPc = .drun := by
      cases hdr : s.drainPc with
      | didle =>
        exact absurd ⟨hm, h11.1, h11.2, fun hf => nomatch (hdr.symm.trans hf)⟩ hnd
      | drun => rfl
      | ddone =>
        exact absurd ⟨hm, h11.1, h11.2, fun hf => nomatch (hdr.symm.trans hf)⟩ hnd
    refine ⟨.drainClosed, ?_⟩
    simp only [pstep]
    rw [if_pos ⟨hdr, hInv.i10 h11.1⟩]
    rfl

theorem nofail_inv (cfg : PipeConfig) (hnf : ∀ k, cfg.failPlan k = false) {s : PipeState}
    (h : PReachable cfg s) : s.encPc ≠ .efail ∧ s.drainPc = .didle ∧ s.drainList = [] := by
  induction h with
  | init => exact ⟨(fun hf => nomatch hf), rfl, rfl⟩
  | step hr hstep ih =>
    rename_i s0 s1 a
    obtain ⟨ihe, ihd, ihl⟩ := ih
    cases a with
    | sig =>
      simp only [pstep] at hstep
      split at hstep
      · simp only [Option.some.injEq] at hstep; subst hstep
        exact ⟨ihe, ihd, ihl⟩
      · exact Option.noConfusion hstep
    | prodSend =>
      simp only [pstep, prodSendStep] at hstep
      split at hstep
      · simp only [Option.some.injEq] at hstep; subst hstep
        exact ⟨ihe, ihd, ihl⟩
      · exact Option.noConfusion hstep
    | prodExit =>
      simp only [pstep, prodExitStep] at hstep
      split at hstep
      · simp only [Option.some.injEq] at hstep; subst hstep
        exact ⟨ihe, ihd, ihl⟩
      · exact Option.noConfusion hstep
    | mainFinish =>
      simp only [pstep] at hstep
      split at hstep
      · simp only [Option.some.injEq] at hstep; subst hstep
        exact ⟨ihe, ihd, ihl⟩
      · exact Option.noConfusion hstep
    | cntRecv =>
      rcases himg : s0.img with _ | ⟨v, rest⟩ <;> simp only [pstep, himg] at hstep
      · exact Option.noConfusion hstep
      · split at hstep
        · simp only [Option.some.injEq] at hstep; subst hstep
          exact ⟨ihe, ihd, ihl⟩
        · exact Option.noConfusion hstep
    | cntExitLoop =>
      simp only [pstep] at hstep
      split at hstep
      · simp only [Option.some.injEq] at hstep; subst hstep
        exact ⟨ihe, ihd, ihl⟩
      · exact Option.noConfusion hstep
    | cntClose =>
      simp only [pstep] at hstep
      split at hstep
      · simp only [Option.some.injEq] at hstep; subst hstep
        exact ⟨ihe, ihd, ihl⟩
      · exact Option.noConfusion hstep
    | handoffEnc =>
      rcases hheld : s0.held with _ | v <;> simp only [pstep, hheld] at hstep
      · exact Option.noConfusion hstep
      · split at hstep
        · simp only [Option.some.injEq] at hstep; subst hstep
          refine ⟨?_, ihd, ihl⟩
          intro hf
          dsimp only at hf
          rw [hnf s0.encList.length] at hf
          simp at hf
        · exact Option.noConfusion hstep
    | handoffDrain =>
      rcases hheld : s0.held with _ | v <;> simp only [pstep, hheld] at hstep
      · exact Option.noConfusion hstep
      · split at hstep
        · rename_i hg
          exact absurd hg.2 (fun hf => nomatch (ihd.symm.trans hf))
        · exact Option.noConfusion hstep
    | encFail =>
      simp only [pstep] at hstep
      split at hstep
      · rename_i hg
        exact absurd hg ihe
      · exact Option.noConfusion hstep
    | encRecvClosed =>
      simp only [pstep] at hstep
      split at hstep
      · simp only [Option.some.injEq] at hstep; subst hstep
        exact ⟨(fun hf => nomatch hf), ihd, ihl⟩
      · exact Option.noConfusion hstep
    | drainClosed =>
      simp only [pstep] at hstep
      split at hstep
      · rename_i hg
        exact absurd hg.1 (fun hf => nomatch (ihd.symm.trans hf))
      · exact Option.noConfusion hstep

theorem nosig_inv (cfg : PipeConfig) (hnf : ∀ k, cfg.failPlan k = false)
    (hns : cfg.sigEnabled = false) {s : PipeState} (h : PReachable cfg s) :
    s.cancelled = true → (s.cntPc = .cclose ∨ s.cntPc = .cdone) ∧ s.frame = cfg.N := by
  induction h with
  | init => exact fun hc => nomatch hc
  | step hr hstep ih =>
    rename_i s0 s1 a
    cases a with
    | sig =>
      simp only [pstep] at hstep
      split at hstep
      · rename_i hg
        exact absurd hg.1 (fun hf => nomatch (hns.symm.trans hf))
      · exact Option.noConfusion hstep
    | prodSend =>
      simp only [pstep, prodSendStep] at hstep
      split at hstep
      · simp only [Option.some.injEq] at hstep; subst hstep
        exact ih
      · exact Option.noConfusion hstep
    | prodExit =>
      simp only [pstep, prodExitStep] at hstep
      split at hstep
      · simp only [Option.some.injEq] at hstep; subst hstep
        exact ih
      · exact Option.noConfusion hstep
    | mainFinish =>
      simp only [pstep] at hstep
      split at hstep
      · simp only [Option.some.injEq] at hstep; subst hstep
        exact ih
      · exact Option.noConfusion hstep
    | cntRecv =>
      rcases himg : s0.img with _ | ⟨v, rest⟩ <;> simp only [pstep, himg] at hstep
      · exact Option.noConfusion hstep
      · split at hstep
        · rename_i hg
          simp only [Option.some.injEq] at hstep; subst hstep
          intro hc
          rcases (ih hc).1 with h2 | h2 <;> exact nomatch (hg.symm.trans h2)
        · exact Option.noConfusion hstep
    | cntExitLoop =>
      simp only [pstep] at hstep
      split at hstep
      · simp only [Option.some.injEq] at hstep; subst hstep
        intro hc
        exact ⟨Or.inl rfl, (ih hc).2⟩
      · exact Option.noConfusion hstep
    | cntClose =>
      simp only [pstep] at hstep
      split at hstep
      · simp only [Option.some.injEq] at hstep; subst hstep
        intro hc
        exact ⟨Or.inr rfl, (ih hc).2⟩
      · exact Option.noConfusion hstep
    | handoffEnc =>
      rcases hheld : s0.held with _ | v <;> simp only [pstep, hheld] at hstep
      · exact Option.noConfusion hstep
      · split at hstep
        · rename_i hg
          simp only [Option.some.injEq] at hstep; subst hstep
          intro hc
          dsimp only at hc
          by_cases hN : s0.frame = cfg.N
          · refine ⟨Or.inl ?_, hN⟩
            dsimp only
            rw [if_pos hN]
          · rw [if_neg hN] at hc
            rcases (ih hc).1 with h2 | h2 <;> exact nomatch (hg.1.symm.trans h2)
        · exact Option.noConfusion hstep
    | handoffDrain =>
      rcases hheld : s0.held with _ | v <;> simp only [pstep, hheld] at hstep
      · exact Option.noConfusion hstep
      · split at hstep
        · rename_i hg
          have hd := (nofail_inv cfg hnf hr).2.1
          exact absurd hg.2 (fun hf => nomatch (hd.symm.trans hf))
        · exact Option.noConfusion hstep
    | encFail =>
      simp only [pstep] at hstep
      split at hstep
      · rename_i hg
        have he := (nofail_inv cfg hnf hr).1
        exact absurd hg he
      · exact Option.noConfusion hstep
    | encRecvClosed =>
      simp only [pstep] at hstep
      split at hstep
      · simp only [Option.some.injEq] at hstep; subst hstep
        exact ih
      · exact Option.noConfusion hstep
    | drainClosed =>
      simp only [pstep] at hstep
      split at hstep
      · rename_i hg
        have hd := (nofail_inv cfg hnf hr).2.1
        exact absurd hg.1 (fun hf => nomatch (hd.symm.trans hf))
      · exact Option.noConfusion hstep

theorem rangeExtends (k n : Nat) (h : k ≤ n) :
    ∃ t, List.range n = List.range k ++ t := by
  refine ⟨List.range' k (n - k), ?_⟩
  induction n with
  | zero =>
    have hk : k = 0 := by omega
    subst hk
    rfl
  | succ m ih =>
    rcases Nat.lt_or_ge k (m + 1) with hlt | hge
    · have hkm : k ≤ m := by omega
      have hs : m + 1 - k = (m - k) + 1 := by omega
      rw [List.range_succ, ih hkm, hs, List.range'_1_concat, ← List.append_assoc]
      congr 2
      omega
    · have hk : k = m + 1 := by omega
      subst hk
      simp

theorem preachable_of_prun (cfg : PipeConfig) :
    ∀ (tr : List PipeAct) (s s' : PipeState), PReachable cfg s →
      prun cfg s tr = some s' → PReachable cfg s' := by
  intro tr
  induction tr with
  | nil =>
    intro s s' hr h
    simp only [prun, Option.some.injEq] at h
    subst h
    exact hr
  | cons a rest ih =>
    intro s s' hr h
    simp only [prun] at h
    rcases hstep : pstep cfg s a with _ | s1
    · rw [hstep] at h
      exact Option.noConfusion h
    · rw [hstep] at h
      exact ih s1 s' (PReachable.step hr hstep) h

/-- C2: for every session configuration, (1) after cancellation every enabled
pipeline transition strictly decreases a Nat ranking, and (2) any schedule
runnable from a cancelled state is no longer than that ranking — all stages
terminate; (3) (buffer capacity ≥ 1) every reachable state that is not
all-done has an enabled transition — no deadlock; (4) the encoder never
receives a frame the producer did not produce (its list is a prefix of the
produced ids); (5) with a frame limit and no interrupt or write failure,
every completed session hands the encoder exactly the first N frames; (6)
with no limit and no write failure, a completed (signal-cancelled) session
hands the encoder exactly the frames produced before cancellation; (7) on an
encode failure the encoder goroutine cancels the context and spawns the
drain goroutine in one step, and (8–9) the drain keeps accepting hand-offs
while it runs and exits exactly when `counterStream` is closed. -/
theorem pipelineCancellation (cfg : PipeConfig) :
    (∀ (s s' : PipeState) (a : PipeAct), s.cancelled = true → pstep cfg s a = some s' →
        pMeasure s' < pMeasure s)
    ∧ (∀ (tr : List PipeAct) (s s' : PipeState), s.cancelled = true →
        prun cfg s tr = some s' → tr.length ≤ pMeasure s)
    ∧ (1 ≤ cfg.B → ∀ s : PipeState, PReachable cfg s → ¬ PAllDone s →
        ∃ a, (pstep cfg s a).isSome = true)
    ∧ (∀ s : PipeState, PReachable cfg s → ∃ t, List.range s.nextId = s.encList ++ t)
    ∧ (cfg.sigEnabled = false → (∀ k, cfg.failPlan k = false) →
        ∀ s : PipeState, PReachable cfg s → PAllDone s → s.encList = List.range cfg.N)
    ∧ ((∀ k, cfg.failPlan k = false) → cfg.N = 0 →
        ∀ s : PipeState, PReachable cfg s → PAllDone s → s.encList = List.range s.nextId)
    ∧ (∀ s : PipeState, s.encPc = .efail →
        pstep cfg s .encFail
          = some { s with cancelled := true, drainPc := .drun, encPc := .edone })
    ∧ (∀ s : PipeState, s.drainPc = .drun →
        ((pstep cfg s .drainClosed).isSome = true ↔ s.csClosed = true))
    ∧ (∀ (s : PipeState) (v : Nat), s.cntPc = .csend → s.held = some v →
        s.drainPc = .drun → (pstep cfg s .handoffDrain).isSome = true) := by
  refine ⟨?_, ?_, ?_, ?_, ?_, ?_, ?_, ?_, ?_⟩
  · exact fun s s' a hc h => pMeasure_dec cfg hc h
  · exact fun tr s s' hc h => prun_length_le cfg tr s s' hc h
  · exact fun hB s hr hnd => pipeline_progress cfg hB (pinv_reachable cfg hr) hnd
  · intro s hr
    have inv := pinv_reachable cfg hr
    have hk : (if s.cntPc = CntPc.csend then s.frame - 1 else s.frame) ≤ s.nextId := by
      have := inv.i6a.2
      split <;> omega
    obtain ⟨t1, ht1⟩ := rangeExtends _ s.nextId hk
    refine ⟨s.drainList ++ t1, ?_⟩
    rw [ht1, ← inv.i6c, List.append_assoc]
  · intro hns hnf s hr hd
    have inv := pinv_reachable cfg hr
    have hcanc : s.cancelled = true := inv.i9 (Or.inr hd.1)
    obtain ⟨_, hfr⟩ := nosig_inv cfg hnf hns hr hcanc
    have hdl : s.drainList = [] := (nofail_inv cfg hnf hr).2.2
    have h6 := inv.i6c
    rw [if_neg (fun hf : s.cntPc = CntPc.csend => nomatch ((hd.2.1).symm.trans hf)), hdl,
      List.append_nil] at h6
    rw [h6, hfr]
  · intro hnf hN0 s hr hd
    have inv := pinv_reachable cfg hr
    have hdl : s.drainList = [] := (nofail_inv cfg hnf hr).2.2
    have h6 := inv.i6c
    rw [if_neg (fun hf : s.cntPc = CntPc.csend => nomatch ((hd.2.1).symm.trans hf)), hdl,
      List.append_nil] at h6
    rcases inv.i14 (Or.inr hd.2.1) with ⟨_, _, hge⟩ | ⟨_, hfn⟩
    · exact absurd hge (by omega)
    · rw [h6, hfn]
  · intro s he
    simp only [pstep]
    rw [if_pos he]
  · intro s hd
    constructor
    · intro hs
      by_cases hcs : s.csClosed = true
      · exact hcs
      · exfalso
        simp [pstep, hd, hcs] at hs
    · intro hcs
      simp only [pstep]
      rw [if_pos ⟨hd, hcs⟩]
      rfl
  · intro s v hc hh hd
    simp only [pstep, hh]
    rw [if_pos ⟨hc, hd⟩]
    rfl

theorem pipelineCancellation_witness :
    (1 ≤ cfgW.B ∧ PReachable cfgW pW ∧ PAllDone pW
      ∧ cfgW.sigEnabled = false ∧ (∀ k, cfgW.failPlan k = false))
    ∧ pW.encList = List.range cfgW.N :=
  have hreach : PReachable cfgW pW :=
    preachable_of_prun cfgW
      [.prodSend, .cntRecv, .handoffEnc, .cntClose, .encRecvClosed, .prodExit, .mainFinish]
      pinit pW PReachable.init (by decide)
  have hdone : PAllDone pW := ⟨rfl, rfl, rfl, by decide⟩
  ⟨⟨by decide, hreach, hdone, rfl, fun _ => rfl⟩,
    (pipelineCancellation cfgW).2.2.2.2.1 rfl (fun _ => rfl) pW hreach hdone⟩

end Shady
